import Mathlib

/-!
# Character-level Markov text generator (golang-for-beginners)

A shallow embedding of `processText` and `generateText` from `01/main.go`
(the same two functions are repeated verbatim in `02/main.go` and
`03/main.go`), and of `loadText` and `markovHandler` from `03/main.go`.

Representation choices:

* A Go `rune` is an `Int`.  A Go `string` is read at two levels.
  `GoString` is the sequence of Unicode scalar values that `[]rune(s)` yields,
  which is all that `processText` and the loop of `generateText` look at; the
  conversion `string(rs)` replaces every rune that is not a scalar value by
  U+FFFD, as the Go conversion does.  `RawString` keeps the bytes: a string
  is the sequence of pieces `[]rune(s)` splits it into, each the encoding of
  a scalar value or a byte that is not valid UTF-8 (read as U+FFFD).
  `generateTextRaw` is `generateText` with the bytes of the start text and
  of the output kept; `decode` maps it onto `generateText`
  (`generateTextRaw_decode`).
* Go `int` values are `Int`s; every subtraction and addition the source
  performs on them is wrapped to 64 bits by `wrapInt` (the loop counters
  stay below their bound and need no wrap).  Theorems that need a length or
  an order to be a value of the Go `int` type say so with `maxInt`.
* A Go `map[string][]rune` is an association list with unique insertion
  (`mapGet?` / `mapSet`).
* A run-time panic (slice bounds, index range, `rand.Intn` argument) is an
  `Except.error`.
* `rand.Intn` is driven by a random-selection trace: `trace i` is the raw
  value drawn in loop iteration `i`, reduced modulo the argument.
* The package variables of `03/main.go` are a `Config` value that
  `markovHandler` takes and returns; the file system and `strings.ToLower`
  are the `Env` parameter; a request is its path bytes and the three query
  parameters, a numeric one by the outcome of `strconv.Atoi`.
-/

namespace Markov

/-! ## Runes and strings -/

/-- Go `rune` (alias of `int32`). -/
abbrev Rune := Int

/-- Unicode scalar values: code points outside the surrogate range. -/
def isScalar (r : Rune) : Bool :=
  (0 ≤ r && r < 0xD800) || (0xE000 ≤ r && r ≤ 0x10FFFF)

/-- A code point that can occur in a decoded string. -/
abbrev Scalar := { r : Rune // isScalar r = true }

/-- A Go string, as the sequence of code points it decodes to (what
`[]rune(s)` yields).  Two strings with the same code points are one
`GoString`; `RawString` below tells a string that is not valid UTF-8 from
its decoding. -/
abbrev GoString := List Scalar

/-- The replacement character U+FFFD (`utf8.RuneError`). -/
def runeError : Scalar := ⟨0xFFFD, by decide⟩

/-- Encoding of a single rune by `string(...)`: invalid runes become U+FFFD. -/
def toScalar (r : Rune) : Scalar :=
  if h : isScalar r = true then ⟨r, h⟩ else runeError

/-- The conversion `[]rune(s)`. -/
def runesOf (s : GoString) : List Rune := s.map (fun c => c.val)

/-- The conversion `string(rs)` of a rune slice. -/
def stringOf (rs : List Rune) : GoString := rs.map toScalar

/-- A string literal given by its code points. -/
def str (codes : List Int) : GoString := stringOf codes

/-- A piece of a Go string as the conversion `[]rune(s)` reads it: the UTF-8
encoding of one scalar value, or one byte that is not part of such an
encoding. -/
inductive Piece where
  | scalar (c : Scalar)
  | invalidByte (b : Nat)
  deriving DecidableEq

/-- A Go string with its bytes kept: the pieces it splits into, in order. -/
abbrev RawString := List Piece

/-- The rune `[]rune(s)` yields for a piece: U+FFFD for an invalid byte. -/
def pieceRune (p : Piece) : Scalar :=
  match p with
  | .scalar c => c
  | .invalidByte _ => runeError

/-- The code points of a string: `runesOf (decode s)` is `[]rune(s)`. -/
def decode (s : RawString) : GoString := s.map pieceRune

/-- The bytes of a string built by `string(rs)`: every code point in its
UTF-8 encoding, hence a well-formed string. -/
def encode (s : GoString) : RawString := s.map Piece.scalar

/-! ## Machine integers, slices and panics -/

/-- Largest value of the 64-bit Go `int`, `2^63 - 1`. -/
def maxInt : Int := 9223372036854775807

/-- Smallest value of the 64-bit Go `int`, `-2^63`. -/
def minInt : Int := -9223372036854775808

/-- Two-complement wrap-around of a 64-bit `int` result, that is
`(x + 2^63) mod 2^64 - 2^63` (see `wrapInt_def`).  It is computed by cases on
the sign so that a value inside the `int` range is returned as it is. -/
def wrapInt (x : Int) : Int :=
  match x with
  | .ofNat n =>
    if n ≤ 9223372036854775807 then x
    else (x + 9223372036854775808) % 18446744073709551616 - 9223372036854775808
  | .negSucc n =>
    if n < 9223372036854775808 then x
    else (x + 9223372036854775808) % 18446744073709551616 - 9223372036854775808

/-- Run-time panics the two functions can raise. -/
inductive GoPanic where
  | sliceBounds
  | indexRange
  | intnArg
  deriving DecidableEq, Repr

/-- The builtin `len` of a slice. -/
def len {α : Type} (xs : List α) : Int := (xs.length : Int)

/-- Slice expression `xs[low:high]`; panics unless `0 ≤ low ≤ high ≤ len xs`.
(The source never slices beyond the length, so capacity plays no role.) -/
def slice {α : Type} (xs : List α) (low high : Int) : Except GoPanic (List α) :=
  if 0 ≤ low ∧ low ≤ high ∧ high ≤ len xs then
    .ok ((xs.drop low.toNat).take (high - low).toNat)
  else .error .sliceBounds

/-- Index expression `xs[i]`; panics unless `0 ≤ i < len xs`. -/
def index (xs : List Rune) (i : Int) : Except GoPanic Rune :=
  if i < 0 then .error .indexRange
  else
    match xs[i.toNat]? with
    | some x => .ok x
    | none => .error .indexRange

/-- The call `rand.Intn(n)` with raw random value `raw`; panics when `n ≤ 0`. -/
def intn (raw : Nat) (n : Int) : Except GoPanic Int :=
  if n ≤ 0 then .error .intnArg else .ok ((raw : Int) % n)

/-! ## The transition table -/

/-- The Go type `map[string][]rune`. -/
abbrev Table := List (GoString × List Rune)

/-- Two-valued map read `p, ok := m[key]`. -/
def mapGet? : Table → GoString → Option (List Rune)
  | [], _ => none
  | (k, v) :: rest, key => if k = key then some v else mapGet? rest key

/-- One-valued map read `m[key]`: the zero value (nil slice) when absent. -/
def mapGet (m : Table) (key : GoString) : List Rune := (mapGet? m key).getD []

/-- Map assignment `m[key] = v`. -/
def mapSet : Table → GoString → List Rune → Table
  | [], key, v => [(key, v)]
  | (k, w) :: rest, key, v =>
    if k = key then (k, v) :: rest else (k, w) :: mapSet rest key v

/-! ## processText -/

/-- The two map statements of the loop body of `processText`:
`if ngrams[gram] == nil { ngrams[gram] = []rune{} }` followed by
`ngrams[gram] = append(ngrams[gram], next)`.  A slice stored under a key is
never empty when the test runs, so the nil test is the test for an empty
read. -/
def recordFollower (ngrams : Table) (gram : GoString) (next : Rune) : Table :=
  let ngrams1 := if mapGet ngrams gram = [] then mapSet ngrams gram [] else ngrams
  mapSet ngrams1 gram (mapGet ngrams1 gram ++ [next])

/-- The `for i := 0; i < inputRunesLen-order; i++` loop of `processText`:
`n` iterations remain, `i` is the loop variable. -/
def processLoop (inputRunes : List Rune) (order : Int) :
    Nat → Nat → Table → Except GoPanic Table
  | 0, _, ngrams => .ok ngrams
  | n + 1, i, ngrams =>
    match slice inputRunes (i : Int) (wrapInt ((i : Int) + order)) with
    | .error e => .error e
    | .ok window =>
      let gram := stringOf window
      match index inputRunes (wrapInt ((i : Int) + order)) with
      | .error e => .error e
      | .ok next => processLoop inputRunes order n (i + 1) (recordFollower ngrams gram next)

/-- The function `processText(input, order)`. -/
def processText (input : GoString) (order : Int) : Except GoPanic Table :=
  let inputRunes := runesOf input
  let inputRunesLen := len inputRunes
  processLoop inputRunes order (wrapInt (inputRunesLen - order)).toNat 0 []

/-! ## generateText -/

/-- Loop-carried variables of `generateText`. -/
structure GenState where
  result : List Rune
  currentGram : List Rune
  deriving DecidableEq, Repr

/-- The expression `possibilities[rand.Intn(len(possibilities))]` with raw
random value `raw`. -/
def pickRune (possibilities : List Rune) (raw : Nat) : Except GoPanic Rune :=
  match intn raw (len possibilities) with
  | .error e => .error e
  | .ok j => index possibilities j

/-- One execution of the loop body of `generateText` with raw random value
`raw`; `none` is the `break`. -/
def genBody (order : Int) (ngrams : Table) (raw : Nat) (s : GenState) :
    Except GoPanic (Option GenState) :=
  match mapGet? ngrams (stringOf s.currentGram) with
  | none => .ok none
  | some possibilities =>
    match pickRune possibilities raw with
    | .error e => .error e
    | .ok nextRune =>
      let result := s.result ++ [nextRune]
      let resultLen := len result
      match slice result (wrapInt (resultLen - order)) resultLen with
      | .error e => .error e
      | .ok gram => .ok (some ⟨result, gram⟩)

/-- The `for i := 0; i < iterations; i++` loop of `generateText`:
`n` iterations remain, `i` is the loop variable. -/
def genLoop (order : Int) (ngrams : Table) (trace : Nat → Nat) :
    Nat → Nat → GenState → Except GoPanic GenState
  | 0, _, s => .ok s
  | n + 1, i, s =>
    match genBody order ngrams (trace i) s with
    | .error e => .error e
    | .ok none => .ok s
    | .ok (some s1) => genLoop order ngrams trace n (i + 1) s1

/-- The function `generateText(startTxt, order, iterations, ngrams)`, run
against the random-selection trace `trace`. -/
def generateText (startTxt : GoString) (order iterations : Int) (ngrams : Table)
    (trace : Nat → Nat) : Except GoPanic GoString :=
  let startRunes := runesOf startTxt
  let startRunesLen := len startRunes
  if startRunesLen < order then .ok startTxt
  else
    match slice startRunes (wrapInt (startRunesLen - order)) startRunesLen with
    | .error e => .error e
    | .ok currentGram =>
      match genLoop order ngrams trace iterations.toNat 0 ⟨startRunes, currentGram⟩ with
      | .error e => .error e
      | .ok s => .ok (stringOf s.result)



/-- The function `generateText(startTxt, order, iterations, ngrams)` with the
bytes of its strings kept: `[]rune(startTxt)` reads the code points of the
start text, the early exit returns `startTxt` itself and the final
`string(result)` builds a well-formed string.  (A key of `ngrams` that is
not valid UTF-8 can never equal `string(currentGram)`, so the table is taken
with its well-formed keys.) -/
def generateTextRaw (startTxt : RawString) (order iterations : Int) (ngrams : Table)
    (trace : Nat → Nat) : Except GoPanic RawString :=
  let startRunes := runesOf (decode startTxt)
  let startRunesLen := len startRunes
  if startRunesLen < order then .ok startTxt
  else
    match slice startRunes (wrapInt (startRunesLen - order)) startRunesLen with
    | .error e => .error e
    | .ok currentGram =>
      match genLoop order ngrams trace iterations.toNat 0 ⟨startRunes, currentGram⟩ with
      | .error e => .error e
      | .ok s => .ok (encode (stringOf s.result))

/-- The pipeline of `main` with the bytes of its strings kept; `processText`
reads its input through `[]rune(input)` only. -/
def runPipelineRaw (inputTxt startText : RawString) (order iterations : Int)
    (trace : Nat → Nat) : Except GoPanic RawString :=
  match processText (decode inputTxt) order with
  | .error e => .error e
  | .ok ngrams => generateTextRaw startText order iterations ngrams trace

/-- The pipeline of `main`:
`generateText(startText, order, iterations, processText(inputTxt, order))`. -/
def runPipeline (inputTxt startText : GoString) (order iterations : Int)
    (trace : Nat → Nat) : Except GoPanic GoString :=
  match processText inputTxt order with
  | .error e => .error e
  | .ok ngrams => generateText startText order iterations ngrams trace

/-! ## The HTTP variant (`03/main.go`) -/

/-- The package variables `startText`, `order` and `iterations` of
`03/main.go`: one copy, shared by all requests. -/
structure Config where
  startText : GoString
  order : Int
  iterations : Int
  deriving DecidableEq, Repr

/-- The constant `defaultStartText`, "This beautiful morning will". -/
def defaultStartText : GoString :=
  str [84, 104, 105, 115, 32, 98, 101, 97, 117, 116, 105, 102, 117, 108, 32,
       109, 111, 114, 110, 105, 110, 103, 32, 119, 105, 108, 108]

/-- The constant `defaultOrder`. -/
def defaultOrder : Int := 5

/-- The constant `defaultIterations`. -/
def defaultIterations : Int := 500

/-- The package variables once `main` has stored the values of the `-o` and
`-i` flags (which default to `defaultOrder` and `defaultIterations`). -/
def startupConfig (flagO flagI : Int) : Config := ⟨defaultStartText, flagO, flagI⟩

/-- A numeric query parameter as the handler sees it: `params.Has(name)` and
the outcome of `strconv.Atoi(params.Get(name))`. -/
inductive IntParam where
  | absent
  | malformed
  | value (n : Int)
  deriving DecidableEq, Repr

/-- What `markovHandler` reads of a request: the bytes of `r.URL.Path` and
the query parameters `o`, `i` and `s`. -/
structure Request where
  path : List Nat
  o : IntParam
  i : IntParam
  s : Option GoString
  deriving DecidableEq, Repr

/-- The three corpus files `data/<title>.txt` that `loadText` can name. -/
inductive Book where
  | aliceInWonderland
  | aRoomWithAView
  | theTragedieOfMacbeth
  deriving DecidableEq, Repr

/-- The library and the file system, as far as `loadText` uses them:
`strings.ToLower` on the bytes of the author name, and `os.ReadFile`
followed by `string(b)` (`none` when the file cannot be opened:
`os.ReadFile` then returns a nil slice and an error). -/
structure Env where
  toLower : List Nat → List Nat
  readFile : Book → Option GoString

/-- The error value `errors.New("author not found")`. -/
inductive LoadError where
  | authorNotFound
  deriving DecidableEq, Repr

/-- The `switch a` of `loadText`: "carroll", "forster", "shakespeare". -/
def bookOf (a : List Nat) : Option Book :=
  if a = [99, 97, 114, 114, 111, 108, 108] then some .aliceInWonderland
  else if a = [102, 111, 114, 115, 116, 101, 114] then some .aRoomWithAView
  else if a = [115, 104, 97, 107, 101, 115, 112, 101, 97, 114, 101] then
    some .theTragedieOfMacbeth
  else none

/-- The function `loadText(author)` of `03/main.go`.  When `os.ReadFile`
fails, the error is printed and `string(b), nil` is returned, with `b` nil:
the empty text and no error. -/
def loadText (env : Env) (author : List Nat) : Except LoadError GoString :=
  let a := env.toLower author
  match bookOf a with
  | none => .error .authorNotFound
  | some book =>
    match env.readFile book with
    | some text => .ok text
    | none => .ok []

/-- What a request is answered with: the not-found page of `errorHandler`,
the generated text, or nothing when the handler panics. -/
inductive Response where
  | notFound
  | text (body : GoString)
  | aborted (p : GoPanic)
  deriving DecidableEq, Repr

/-- The bytes of the route "/markov/". -/
def markovRoute : List Nat := [47, 109, 97, 114, 107, 111, 118, 47]

/-- The assignment `order = o` (or `iterations = i`) guarded by
`params.Has(name)` and `err == nil`. -/
def overrideInt (current : Int) (p : IntParam) : Int :=
  match p with
  | .value n => n
  | _ => current

/-- The function `markovHandler`: it takes the package variables as they
are when the request arrives and returns them as it leaves them, together
with the response. -/
def markovHandler (env : Env) (trace : Nat → Nat) (cfg : Config) (r : Request) :
    Config × Response :=
  if r.path.length < 8 ∨ r.path.take 8 ≠ markovRoute then (cfg, .notFound)
  else
    let author := r.path.drop 8
    if author.length = 0 then (cfg, .notFound)
    else
      let order := overrideInt cfg.order r.o
      let iterations := overrideInt cfg.iterations r.i
      let startText := match r.s with
        | some s => s
        | none => cfg.startText
      let cfg1 : Config := ⟨startText, order, iterations⟩
      match loadText env author with
      | .error _ => (cfg1, .notFound)
      | .ok inputTxt =>
        match processText inputTxt order with
        | .error p => (cfg1, .aborted p)
        | .ok ngrams =>
          match generateText startText order iterations ngrams trace with
          | .error p => (cfg1, .aborted p)
          | .ok result => (cfg1, .text result)

/-- Requests handled one after another, request number `n` first, each with
its own random-selection trace: the responses, in order. -/
def serve (env : Env) (traces : Nat → Nat → Nat) : Nat → Config → List Request → List Response
  | _, _, [] => []
  | n, cfg, r :: rest =>
    let step := markovHandler env (traces n) cfg r
    step.2 :: serve env traces (n + 1) step.1 rest

/-! ## Specification-side helpers -/

/-- ASCII lower-casing, the behaviour of `strings.ToLower` on ASCII names. -/
def asciiLower (bs : List Nat) : List Nat :=
  bs.map (fun b => if 65 ≤ b ∧ b ≤ 90 then b + 32 else b)

/-- A sample environment: ASCII lower-casing and a `data` directory in which
`alice_in_wonderland.txt` holds "abcabcabc" and the two other files cannot
be read. -/
def sampleEnv : Env :=
  ⟨asciiLower, fun book =>
    match book with
    | .aliceInWonderland => some (str [97, 98, 99, 97, 98, 99, 97, 98, 99])
    | _ => none⟩

/-- The request path "/markov/Carroll". -/
def carrollPath : List Nat := markovRoute ++ [67, 97, 114, 114, 111, 108, 108]

/-- The request path "/markov/forster". -/
def forsterPath : List Nat := markovRoute ++ [102, 111, 114, 115, 116, 101, 114]

/-- The loop states a run of the `generateText` loop passes through, the
state at loop entry first: one more state for every completed iteration. -/
def genStates (order : Int) (ngrams : Table) (trace : Nat → Nat) :
    Nat → Nat → GenState → List GenState
  | 0, _, s => [s]
  | n + 1, i, s =>
    match genBody order ngrams (trace i) s with
    | .ok (some s1) => s :: genStates order ngrams trace n (i + 1) s1
    | _ => [s]

/-- The loop states of a run of `generateText` that reaches the loop (no
state when the start text is too short or the first slice panics). -/
def runStates (startTxt : GoString) (order iterations : Int) (ngrams : Table)
    (trace : Nat → Nat) : List GenState :=
  let startRunes := runesOf startTxt
  let startRunesLen := len startRunes
  if startRunesLen < order then []
  else
    match slice startRunes (wrapInt (startRunesLen - order)) startRunesLen with
    | .error _ => []
    | .ok currentGram =>
      genStates order ngrams trace iterations.toNat 0 ⟨startRunes, currentGram⟩

/-- The `k` code points of `rs` starting at position `i`. -/
def window {α : Type} (rs : List α) (i k : Nat) : List α := (rs.drop i).take k

/-- The code point of `corpus` at position `j`, as a rune (0 out of range). -/
def runeAt (corpus : GoString) (j : Nat) : Rune := (runesOf corpus).getD j 0

/-- The runes that follow the occurrences of context `ctx` among the windows
of `corpus` at positions `< i`, in order of occurrence. -/
def followersUpTo (corpus : GoString) (k : Nat) (ctx : GoString) : Nat → List Rune
  | 0 => []
  | i + 1 =>
    followersUpTo corpus k ctx i ++
      (if window corpus i k = ctx then [runeAt corpus (i + k)] else [])

/-- The window positions `i < len corpus - k` at which context `ctx` occurs
and is followed by the rune `c`. -/
def occurrencePositions (corpus : GoString) (k : Nat) (ctx : GoString) (c : Rune) : List Nat :=
  (List.range (corpus.length - k)).filter
    (fun i => decide (window corpus i k = ctx ∧ runeAt corpus (i + k) = c))

/-- What a table built from the windows at positions `< i` answers for `ctx`. -/
def specGet (corpus : GoString) (k : Nat) (i : Nat) (ctx : GoString) : Option (List Rune) :=
  if followersUpTo corpus k ctx i = [] then none else some (followersUpTo corpus k ctx i)

/-! ## Basic facts -/

theorem maxInt_val : maxInt = 9223372036854775807 := rfl

theorem minInt_val : minInt = -9223372036854775808 := rfl

/-- The function `wrapInt` is reduction modulo `2^64` into the `int` range. -/
theorem wrapInt_def (x : Int) :
    wrapInt x = (x + 9223372036854775808) % 18446744073709551616 - 9223372036854775808 := by
  unfold wrapInt
  cases x with
  | ofNat n =>
    simp only []
    split
    · have h : Int.ofNat n = (n : Int) := rfl
      rw [h]
      omega
    · rfl
  | negSucc n =>
    simp only []
    split
    · have h : Int.negSucc n = -((n : Int) + 1) := rfl
      rw [h]
      omega
    · rfl

theorem wrapInt_eq (x : Int) (h1 : minInt ≤ x) (h2 : x ≤ maxInt) : wrapInt x = x := by
  rw [wrapInt_def]
  rw [minInt_val] at h1
  rw [maxInt_val] at h2
  omega

theorem toScalar_val (c : Scalar) : toScalar c.val = c := by
  unfold toScalar
  simp [c.property]

theorem stringOf_runesOf (s : GoString) : stringOf (runesOf s) = s := by
  unfold stringOf runesOf
  induction s with
  | nil => rfl
  | cons c cs ih => simp [toScalar_val] at ih ⊢; exact ih

theorem decode_encode (s : GoString) : decode (encode s) = s := by
  unfold decode encode
  induction s with
  | nil => rfl
  | cons c cs ih =>
    simp only [List.map_cons, List.cons.injEq] at ih ⊢
    exact ⟨rfl, ih⟩

theorem length_decode (s : RawString) : (decode s).length = s.length := by
  simp [decode]

theorem length_stringOf (rs : List Rune) : (stringOf rs).length = rs.length := by
  simp [stringOf]

theorem length_runesOf (s : GoString) : (runesOf s).length = s.length := by
  simp [runesOf]

theorem mapGet?_mapSet (m : Table) (key : GoString) (v : List Rune) (ctx : GoString) :
    mapGet? (mapSet m key v) ctx = if key = ctx then some v else mapGet? m ctx := by
  induction m with
  | nil => simp [mapSet, mapGet?]
  | cons p rest ih =>
    obtain ⟨k, w⟩ := p
    by_cases hk : k = key
    · subst hk
      by_cases hc : k = ctx <;> simp [mapSet, mapGet?, hc]
    · by_cases hc : k = ctx
      · subst hc
        have hk2 : ¬ key = k := fun h => hk h.symm
        simp [mapSet, mapGet?, hk2, hk]
      · simp [mapSet, mapGet?, hk, hc, ih]

theorem mem_mapSet (m : Table) (key : GoString) (v : List Rune) (p : GoString × List Rune)
    (hp : p ∈ mapSet m key v) : p ∈ m ∨ p.1 = key := by
  induction m with
  | nil => simp [mapSet] at hp; right; rw [hp]
  | cons q rest ih =>
    obtain ⟨k, w⟩ := q
    by_cases hk : k = key
    · simp [mapSet, hk] at hp
      rcases hp with h | h
      · right; rw [h]
      · left; simp [h]
    · simp [mapSet, hk] at hp
      rcases hp with h | h
      · left; simp [h]
      · rcases ih h with h1 | h1
        · left; simp [h1]
        · right; exact h1

theorem mapGet?_recordFollower (m : Table) (gram : GoString) (next : Rune) (ctx : GoString) :
    mapGet? (recordFollower m gram next) ctx =
      if gram = ctx then some (mapGet m gram ++ [next]) else mapGet? m ctx := by
  unfold recordFollower
  by_cases hnil : mapGet m gram = []
  · have h1 : mapGet (mapSet m gram []) gram = mapGet m gram := by
      rw [hnil]; simp [mapGet, mapGet?_mapSet]
    simp only [hnil, if_true, mapGet?_mapSet]
    rw [h1, hnil]
    by_cases hc : gram = ctx <;> simp [hc]
  · simp only [hnil, if_false, mapGet?_mapSet]

theorem mem_recordFollower (m : Table) (gram : GoString) (next : Rune)
    (p : GoString × List Rune) (hp : p ∈ recordFollower m gram next) :
    p ∈ m ∨ p.1 = gram := by
  unfold recordFollower at hp
  rcases mem_mapSet _ _ _ _ hp with h | h
  · by_cases hnil : mapGet m gram = []
    · simp only [hnil, if_true] at h
      exact mem_mapSet _ _ _ _ h
    · simp only [hnil, if_false] at h
      exact Or.inl h
  · exact Or.inr h

theorem window_map {α β : Type} (f : α → β) (xs : List α) (i k : Nat) :
    window (xs.map f) i k = (window xs i k).map f := by
  simp [window, List.map_take, List.map_drop]

theorem stringOf_window_runesOf (corpus : GoString) (i k : Nat) :
    stringOf (window (runesOf corpus) i k) = window corpus i k := by
  have h := window_map (fun c : Scalar => c.val) corpus i k
  have h2 : window (runesOf corpus) i k = runesOf (window corpus i k) := h
  rw [h2, stringOf_runesOf]

theorem length_window {α : Type} (xs : List α) (i k : Nat) (h : i + k ≤ xs.length) :
    (window xs i k).length = k := by
  simp [window]; omega

theorem slice_window {α : Type} (xs : List α) (i k : Nat) (h : i + k ≤ xs.length)
    (hlen : (xs.length : Int) ≤ maxInt) :
    slice xs (i : Int) (wrapInt ((i : Int) + (k : Int))) = .ok (window xs i k) := by
  have hw : wrapInt ((i : Int) + (k : Int)) = (i : Int) + (k : Int) := by
    apply wrapInt_eq <;> (have hM := maxInt_val; have hm := minInt_val; omega)
  rw [hw]
  unfold slice len window
  have hc : (0 : Int) ≤ (i : Int) ∧ (i : Int) ≤ (i : Int) + (k : Int) ∧
      (i : Int) + (k : Int) ≤ (xs.length : Int) := by omega
  rw [if_pos hc]
  have h1 : ((i : Int)).toNat = i := by omega
  have h2 : ((i : Int) + (k : Int) - (i : Int)).toNat = k := by omega
  rw [h1, h2]

theorem index_runeAt (corpus : GoString) (i k : Nat) (h : i + k < corpus.length)
    (hlen : (corpus.length : Int) ≤ maxInt) :
    index (runesOf corpus) (wrapInt ((i : Int) + (k : Int))) = .ok (runeAt corpus (i + k)) := by
  have hw : wrapInt ((i : Int) + (k : Int)) = (i : Int) + (k : Int) := by
    apply wrapInt_eq <;> (have hM := maxInt_val; have hm := minInt_val; omega)
  rw [hw]
  unfold index runeAt
  have h0 : ¬ ((i : Int) + (k : Int) < 0) := by omega
  rw [if_neg h0]
  have h1 : ((i : Int) + (k : Int)).toNat = i + k := by omega
  rw [h1]
  have h2 : i + k < (runesOf corpus).length := by rw [length_runesOf]; exact h
  simp [List.getD, List.getElem?_eq_getElem h2]

/-- Loop invariant of `processText`: after the windows at positions `< i`
the table answers `specGet corpus k i`, and all keys have `k` code points. -/
theorem processLoop_spec (corpus : GoString) (k : Nat)
    (hlen : (corpus.length : Int) ≤ maxInt) :
    ∀ (n i : Nat) (t : Table), (n = 0 ∨ i + n + k ≤ corpus.length) →
      (∀ ctx, mapGet? t ctx = specGet corpus k i ctx) →
      (∀ p ∈ t, p.1.length = k) →
      ∃ t1, processLoop (runesOf corpus) (k : Int) n i t = .ok t1 ∧
        (∀ ctx, mapGet? t1 ctx = specGet corpus k (i + n) ctx) ∧
        (∀ p ∈ t1, p.1.length = k) := by
  intro n
  induction n with
  | zero =>
    intro i t _ hget hkeys
    exact ⟨t, rfl, by simpa using hget, hkeys⟩
  | succ n ih =>
    intro i t hb0 hget hkeys
    have hb : i + (n + 1) + k ≤ corpus.length := by
      rcases hb0 with h | h
      · omega
      · exact h
    have hlen2 : ((runesOf corpus).length : Int) ≤ maxInt := by
      rw [length_runesOf]; exact hlen
    have hs := slice_window (runesOf corpus) i k (by rw [length_runesOf]; omega) hlen2
    have hi := index_runeAt corpus i k (by omega) hlen
    rw [processLoop]
    rw [hs]
    simp only [hi, stringOf_window_runesOf]
    have hget2 : ∀ ctx, mapGet? (recordFollower t (window corpus i k) (runeAt corpus (i + k))) ctx
        = specGet corpus k (i + 1) ctx := by
      intro ctx
      rw [mapGet?_recordFollower]
      have hg := hget ctx
      by_cases hc : window corpus i k = ctx
      · have hm : mapGet t (window corpus i k) = followersUpTo corpus k ctx i := by
          unfold mapGet
          rw [hc, hg]
          unfold specGet
          by_cases he : followersUpTo corpus k ctx i = [] <;> simp [he]
        rw [if_pos hc, hm]
        simp [specGet, followersUpTo, hc]
      · rw [if_neg hc, hg]
        simp [specGet, followersUpTo, hc]
    have hkeys2 : ∀ p ∈ recordFollower t (window corpus i k) (runeAt corpus (i + k)),
        p.1.length = k := by
      intro p hp
      rcases mem_recordFollower _ _ _ _ hp with h | h
      · exact hkeys p h
      · rw [h]; exact length_window corpus i k (by omega)
    obtain ⟨t1, h1, h2, h3⟩ := ih (i + 1) _ (Or.inr (by omega)) hget2 hkeys2
    refine ⟨t1, h1, ?_, h3⟩
    intro ctx
    rw [h2 ctx]
    have he : i + 1 + n = i + (n + 1) := by omega
    rw [he]

/-- Functional description of `processText` for a non-negative order: it
returns a table that answers every lookup with the followers of the context
among the `len - k` windows, and whose keys all have `k` code points. -/
theorem processText_spec (corpus : GoString) (k : Nat)
    (hkmax : (k : Int) ≤ maxInt) (hlen : (corpus.length : Int) ≤ maxInt) :
    ∃ t, processText corpus (k : Int) = .ok t ∧
      (∀ ctx, mapGet? t ctx = specGet corpus k (corpus.length - k) ctx) ∧
      (∀ p ∈ t, p.1.length = k) := by
  unfold processText
  simp only []
  have hw : wrapInt (len (runesOf corpus) - (k : Int)) = (corpus.length : Int) - (k : Int) := by
    unfold len
    rw [length_runesOf]
    apply wrapInt_eq
    · have hM := maxInt_val; have hm := minInt_val; omega
    · have hM := maxInt_val; have hm := minInt_val; omega
  rw [hw]
  have hn : ((corpus.length : Int) - (k : Int)).toNat = corpus.length - k := by omega
  rw [hn]
  obtain ⟨t1, h1, h2, h3⟩ := processLoop_spec corpus k hlen (corpus.length - k) 0 []
    (by omega) (by intro ctx; simp [mapGet?, specGet, followersUpTo]) (by simp)
  refine ⟨t1, h1, ?_, h3⟩
  intro ctx
  rw [h2 ctx]
  have he : 0 + (corpus.length - k) = corpus.length - k := by omega
  rw [he]

theorem runeAt_eq (corpus : GoString) (j : Nat) (h : j < corpus.length) :
    runeAt corpus j = (corpus[j]).val := by
  unfold runeAt runesOf
  rw [List.getD_eq_getElem?_getD, List.getElem?_map, List.getElem?_eq_getElem h]
  rfl

theorem mem_followersUpTo (corpus : GoString) (k : Nat) (ctx : GoString) (i : Nat)
    (hw : window corpus i k = ctx) :
    ∀ n, i < n → runeAt corpus (i + k) ∈ followersUpTo corpus k ctx n := by
  intro n
  induction n with
  | zero => intro h; omega
  | succ n ih =>
    intro h
    rw [followersUpTo]
    by_cases hin : i = n
    · subst hin
      simp [hw]
    · exact List.mem_append_left _ (ih (by omega))

theorem count_followersUpTo (corpus : GoString) (k : Nat) (ctx : GoString) (c : Rune) :
    ∀ n, (followersUpTo corpus k ctx n).count c =
      ((List.range n).filter
        (fun i => decide (window corpus i k = ctx ∧ runeAt corpus (i + k) = c))).length := by
  intro n
  induction n with
  | zero => simp [followersUpTo]
  | succ n ih =>
    rw [followersUpTo]
    rw [List.count_append, ih, List.range_succ, List.filter_append, List.length_append]
    congr 1
    by_cases hw : window corpus n k = ctx
    · by_cases hc : runeAt corpus (n + k) = c
      · simp [hw, hc]
      · simp [hw, hc, List.count_singleton]
    · simp [hw]

theorem mapGet_of_specGet (t : Table) (corpus : GoString) (k n : Nat) (ctx : GoString)
    (h : mapGet? t ctx = specGet corpus k n ctx) :
    mapGet t ctx = followersUpTo corpus k ctx n := by
  unfold mapGet
  rw [h]
  unfold specGet
  by_cases he : followersUpTo corpus k ctx n = [] <;> simp [he]

/-! ## `processText` with a non-positive order -/

theorem recordFollower_single (l : List Rune) (r : Rune) (hl : l ≠ []) :
    recordFollower [(([] : GoString), l)] [] r = [(([] : GoString), l ++ [r])] := by
  unfold recordFollower
  have h : mapGet [(([] : GoString), l)] [] = l := by simp [mapGet, mapGet?]
  simp only [h, hl, if_false]
  simp [mapSet]

/-- With order 0 every window is empty, so every rune is appended to the
occurrence list of the empty context. -/
theorem processLoop_order_zero (corpus : GoString) (hlen : (corpus.length : Int) ≤ maxInt) :
    ∀ (n i : Nat) (l : List Rune), l ≠ [] → i + n ≤ corpus.length →
      processLoop (runesOf corpus) ((0 : Nat) : Int) n i [(([] : GoString), l)] =
        .ok [(([] : GoString), l ++ ((runesOf corpus).drop i).take n)] := by
  intro n
  induction n with
  | zero => intro i l _ _; simp [processLoop]
  | succ n ih =>
    intro i l hl hb
    have hlen2 : ((runesOf corpus).length : Int) ≤ maxInt := by
      rw [length_runesOf]; exact hlen
    have hs := slice_window (runesOf corpus) i 0 (by rw [length_runesOf]; omega) hlen2
    have hi := index_runeAt corpus i 0 (by omega) hlen
    have hw : window (runesOf corpus) i 0 = [] := by simp [window]
    rw [processLoop]
    rw [hs]
    simp only [hi, hw]
    have hso : stringOf ([] : List Rune) = [] := rfl
    rw [hso, recordFollower_single l _ hl, ih (i + 1) _ (by simp) (by omega)]
    have hd : (runesOf corpus).drop i =
        runeAt corpus (i + 0) :: (runesOf corpus).drop (i + 1) := by
      have hi2 : i < (runesOf corpus).length := by rw [length_runesOf]; omega
      rw [List.drop_eq_getElem_cons hi2]
      simp [runeAt, List.getD, List.getElem?_eq_getElem hi2]
    rw [hd]
    simp

theorem processText_order_zero (corpus : GoString) (hlen : (corpus.length : Int) ≤ maxInt) :
    processText corpus 0 =
      if corpus = [] then .ok [] else .ok [(([] : GoString), runesOf corpus)] := by
  show processText corpus ((0 : Nat) : Int) = _
  unfold processText
  simp only []
  have hw : wrapInt (len (runesOf corpus) - ((0 : Nat) : Int)) = (corpus.length : Int) := by
    unfold len
    rw [length_runesOf, Nat.cast_zero, Int.sub_zero]
    apply wrapInt_eq
    · have hM := maxInt_val; have hm := minInt_val; omega
    · exact hlen
  rw [hw, Int.toNat_ofNat]
  cases corpus with
  | nil => simp [processLoop]
  | cons c cs =>
    have hne : ¬ (c :: cs = []) := by simp
    rw [if_neg hne]
    have hlen2 : (((runesOf (c :: cs)).length : Nat) : Int) ≤ maxInt := by
      rw [length_runesOf]; exact hlen
    have hs := slice_window (runesOf (c :: cs)) 0 0 (by simp) hlen2
    have hi := index_runeAt (c :: cs) 0 0 (by simp) hlen
    have hw2 : window (runesOf (c :: cs)) 0 0 = [] := by simp [window]
    have hz := processLoop_order_zero (c :: cs) hlen cs.length 1 [c.val] (by simp)
      (by simp; omega)
    have hrec : recordFollower [] (stringOf []) (runeAt (c :: cs) (0 + 0)) =
        [(([] : GoString), [c.val])] := by
      simp [recordFollower, mapGet, mapGet?, mapSet, stringOf, runeAt, runesOf]
    simp only [List.length_cons]
    rw [processLoop, hs]
    simp only [hi, hw2]
    rw [hrec, Nat.zero_add, hz]
    simp [runesOf]

theorem processText_order_negative (corpus : GoString) (k : Int) (hk : k < 0)
    (hrange : (corpus.length : Int) - k ≤ maxInt) :
    processText corpus k = .error .sliceBounds := by
  unfold processText
  simp only []
  have hw : wrapInt (len (runesOf corpus) - k) = (corpus.length : Int) - k := by
    unfold len
    rw [length_runesOf]
    apply wrapInt_eq
    · have hM := maxInt_val; have hm := minInt_val; omega
    · have hM := maxInt_val; have hm := minInt_val; omega
  rw [hw]
  obtain ⟨m, hm⟩ : ∃ m, ((corpus.length : Int) - k).toNat = m + 1 :=
    ⟨((corpus.length : Int) - k).toNat - 1, by omega⟩
  rw [hm]
  rw [processLoop]
  have hk2 : wrapInt (((0 : Nat) : Int) + k) = k := by
    rw [Nat.cast_zero, Int.zero_add]
    apply wrapInt_eq
    · have hM := maxInt_val; have hm := minInt_val; omega
    · have hM := maxInt_val; have hm := minInt_val; omega
  rw [hk2]
  have hsl : slice (runesOf corpus) ((0 : Nat) : Int) k = .error .sliceBounds := by
    unfold slice
    rw [if_neg]
    omega
  rw [hsl]

/-- A corpus of at most `order` code points leaves the loop bound
`inputRunesLen-order` non-positive: the loop body never runs. -/
theorem processText_no_window (corpus : GoString) (k : Int)
    (hkmax : k ≤ maxInt) (hshort : (corpus.length : Int) ≤ k) :
    (wrapInt (len (runesOf corpus) - k)).toNat = 0 := by
  have hw : wrapInt (len (runesOf corpus) - k) = (corpus.length : Int) - k := by
    unfold len
    rw [length_runesOf]
    apply wrapInt_eq
    · have hM := maxInt_val; have hm := minInt_val; omega
    · have hM := maxInt_val; have hm := minInt_val; omega
  rw [hw]
  omega

/-- When `len - order` exceeds the `int` range the loop bound wraps to a
negative value: the loop body never runs and the empty table is returned. -/
theorem processText_order_overflow (corpus : GoString) (k : Int) (hmin : minInt ≤ k)
    (hlen : (corpus.length : Int) ≤ maxInt) (hov : maxInt < (corpus.length : Int) - k) :
    processText corpus k = .ok [] := by
  unfold processText
  simp only []
  have hn : (wrapInt (len (runesOf corpus) - k)).toNat = 0 := by
    unfold len
    rw [length_runesOf, wrapInt_def]
    have hM := maxInt_val
    have hm := minInt_val
    omega
  rw [hn]
  rfl

/-! ## Claims about `processText` -/

/-- C1: for every corpus and order `k` (every `k > 0`, and `k = 0` as well),
`processText` returns a table in which every key has exactly `k` code points
and in which, for every window position `i` with `i + k < len corpus`, the
occurrence list stored under the key `corpus[i..i+k)` contains the code point
`corpus[i+k]`.  (`k` and `len corpus` are Go `int`s, hence at most `maxInt`.) -/
theorem processText_keys_and_followers (corpus : GoString) (k : Nat)
    (hkmax : (k : Int) ≤ maxInt) (hlen : (corpus.length : Int) ≤ maxInt) :
    ∃ t, processText corpus (k : Int) = .ok t ∧
      (∀ p ∈ t, p.1.length = k) ∧
      ∀ (i : Nat) (h : i + k < corpus.length),
        ∃ v, mapGet? t (window corpus i k) = some v ∧ (corpus[i + k]).val ∈ v := by
  obtain ⟨t, h1, h2, h3⟩ := processText_spec corpus k hkmax hlen
  refine ⟨t, h1, h3, ?_⟩
  intro i h
  have hm := mem_followersUpTo corpus k (window corpus i k) i rfl (corpus.length - k) (by omega)
  rw [runeAt_eq corpus (i + k) h] at hm
  refine ⟨followersUpTo corpus k (window corpus i k) (corpus.length - k), ?_, hm⟩
  rw [h2]
  unfold specGet
  rw [if_neg]
  intro he
  rw [he] at hm
  simp at hm

theorem processText_keys_and_followers_witness :
    (((3 : Nat) : Int) ≤ maxInt ∧ (((str [97, 98, 99, 100]).length : Nat) : Int) ≤ maxInt) ∧
    ∃ t, processText (str [97, 98, 99, 100]) ((3 : Nat) : Int) = .ok t ∧
      (∀ p ∈ t, p.1.length = 3) ∧
      ∀ (i : Nat) (h : i + 3 < (str [97, 98, 99, 100]).length),
        ∃ v, mapGet? t (window (str [97, 98, 99, 100]) i 3) = some v ∧
          ((str [97, 98, 99, 100])[i + 3]).val ∈ v :=
  ⟨⟨by decide, by decide⟩,
    processText_keys_and_followers (str [97, 98, 99, 100]) 3 (by decide) (by decide)⟩

/-- C2: for every corpus, order `k` (every `k > 0`, and `k = 0` as well),
context `ctx` and code point `c`, the
number of occurrences of `c` in the occurrence list of `ctx` (the empty list
when `ctx` is not a key) equals the number of window positions
`i < len corpus - k` with `corpus[i..i+k) = ctx` and `corpus[i+k] = c`; and
`processText("abcabcabc", 3)` is exactly
`abc -> [a,a], bca -> [b,b], cab -> [c,c]`. -/
theorem processText_follower_counts (corpus : GoString) (k : Nat)
    (hkmax : (k : Int) ≤ maxInt) (hlen : (corpus.length : Int) ≤ maxInt) :
    (∃ t, processText corpus (k : Int) = .ok t ∧
      ∀ (ctx : GoString) (c : Rune),
        (mapGet t ctx).count c = (occurrencePositions corpus k ctx c).length) ∧
    processText (str [97, 98, 99, 97, 98, 99, 97, 98, 99]) 3 =
      .ok [(str [97, 98, 99], [97, 97]), (str [98, 99, 97], [98, 98]),
           (str [99, 97, 98], [99, 99])] := by
  refine ⟨?_, by rfl⟩
  obtain ⟨t, h1, h2, _⟩ := processText_spec corpus k hkmax hlen
  refine ⟨t, h1, ?_⟩
  intro ctx c
  rw [mapGet_of_specGet t corpus k _ ctx (h2 ctx), count_followersUpTo]
  rfl

theorem processText_follower_counts_witness :
    (((2 : Nat) : Int) ≤ maxInt ∧ (((str [97, 98, 97, 98, 97]).length : Nat) : Int) ≤ maxInt) ∧
    ((∃ t, processText (str [97, 98, 97, 98, 97]) ((2 : Nat) : Int) = .ok t ∧
      ∀ (ctx : GoString) (c : Rune),
        (mapGet t ctx).count c = (occurrencePositions (str [97, 98, 97, 98, 97]) 2 ctx c).length) ∧
    processText (str [97, 98, 99, 97, 98, 99, 97, 98, 99]) 3 =
      .ok [(str [97, 98, 99], [97, 97]), (str [98, 99, 97], [98, 98]),
           (str [99, 97, 98], [99, 99])]) :=
  ⟨⟨by decide, by decide⟩,
    processText_follower_counts (str [97, 98, 97, 98, 97]) 2 (by decide) (by decide)⟩

/-! ## Facts about the generator loop -/

theorem stringOf_append (xs ys : List Rune) :
    stringOf (xs ++ ys) = stringOf xs ++ stringOf ys := by
  simp [stringOf]

theorem genBody_some (order : Int) (ngrams : Table) (raw : Nat) (s s1 : GenState)
    (h : genBody order ngrams raw s = .ok (some s1)) :
    ∃ r, s1.result = s.result ++ [r] := by
  unfold genBody at h
  split at h
  · simp at h
  · split at h
    · simp at h
    · rename_i nextRune _
      simp only [] at h
      split at h
      · simp at h
      · simp only [Except.ok.injEq, Option.some.injEq] at h
        exact ⟨nextRune, by rw [← h]⟩

/-- The loop only appends: at most one rune per remaining iteration. -/
theorem genLoop_append (order : Int) (ngrams : Table) (trace : Nat → Nat) :
    ∀ (n i : Nat) (s s1 : GenState), genLoop order ngrams trace n i s = .ok s1 →
      ∃ extra, s1.result = s.result ++ extra ∧ extra.length ≤ n := by
  intro n
  induction n with
  | zero =>
    intro i s s1 h
    simp only [genLoop, Except.ok.injEq] at h
    exact ⟨[], by simp [h], by simp⟩
  | succ n ih =>
    intro i s s1 h
    rw [genLoop] at h
    split at h
    · simp at h
    · simp only [Except.ok.injEq] at h
      exact ⟨[], by simp [h], by simp⟩
    · rename_i s2 hb
      obtain ⟨r, hr⟩ := genBody_some _ _ _ _ _ hb
      obtain ⟨extra, he, hl⟩ := ih (i + 1) s2 s1 h
      refine ⟨r :: extra, ?_, by simp; omega⟩
      rw [he, hr]
      simp

/-- Shape of every result `generateText` returns: the start text followed by
at most `iterations` code points. -/
theorem generateText_shape (startTxt : GoString) (order iterations : Int) (ngrams : Table)
    (trace : Nat → Nat) (out : GoString)
    (h : generateText startTxt order iterations ngrams trace = .ok out) :
    ∃ extra : GoString, out = startTxt ++ extra ∧ extra.length ≤ iterations.toNat := by
  unfold generateText at h
  simp only [] at h
  split at h
  · simp only [Except.ok.injEq] at h
    exact ⟨[], by simp [h], by simp⟩
  · split at h
    · simp at h
    · split at h
      · simp at h
      · rename_i s hs
        obtain ⟨extra, he, hl⟩ := genLoop_append _ _ _ _ _ _ _ hs
        simp only [Except.ok.injEq] at h
        refine ⟨stringOf extra, ?_, by rw [length_stringOf]; exact hl⟩
        rw [← h, he]
        simp only [stringOf_append, stringOf_runesOf]

theorem mapGet?_mem (m : Table) (key : GoString) (v : List Rune)
    (h : mapGet? m key = some v) : (key, v) ∈ m := by
  induction m with
  | nil => simp [mapGet?] at h
  | cons p rest ih =>
    obtain ⟨k, w⟩ := p
    rw [mapGet?] at h
    by_cases hk : k = key
    · simp only [hk, if_true, Option.some.injEq] at h
      simp [hk, h]
    · simp only [hk, if_false] at h
      exact List.mem_cons_of_mem _ (ih h)

/-- A random pick from a non-empty occurrence list succeeds and yields one of
its elements. -/
theorem pickRune_mem (p : List Rune) (raw : Nat) (hp : p ≠ []) :
    ∃ r, pickRune p raw = .ok r ∧ r ∈ p := by
  have hpos : 0 < p.length := List.length_pos.mpr hp
  unfold pickRune intn len
  have h0 : ¬ ((p.length : Int) ≤ 0) := by omega
  rw [if_neg h0]
  simp only []
  unfold index
  have hnn : (0 : Int) ≤ (raw : Int) % (p.length : Int) :=
    Int.emod_nonneg _ (by omega)
  have hlt : (raw : Int) % (p.length : Int) < (p.length : Int) :=
    Int.emod_lt_of_pos _ (by omega)
  have h1 : ¬ ((raw : Int) % (p.length : Int) < 0) := by omega
  rw [if_neg h1]
  have h2 : ((raw : Int) % (p.length : Int)).toNat < p.length := by omega
  rw [List.getElem?_eq_getElem h2]
  exact ⟨_, rfl, List.getElem_mem _⟩

/-- The slice `result[resultLen-order : resultLen]` succeeds when
`0 ≤ order ≤ resultLen ≤ maxInt`. -/
theorem slice_suffix_ok (xs : List Rune) (k : Int) (h0 : 0 ≤ k) (hk : k ≤ (xs.length : Int))
    (hmax : (xs.length : Int) ≤ maxInt) :
    ∃ g, slice xs (wrapInt (len xs - k)) (len xs) = .ok g := by
  unfold len
  have hw : wrapInt ((xs.length : Int) - k) = (xs.length : Int) - k := by
    apply wrapInt_eq
    · have hM := maxInt_val; have hm := minInt_val; omega
    · have hM := maxInt_val; have hm := minInt_val; omega
  rw [hw]
  unfold slice len
  have hc : (0 : Int) ≤ (xs.length : Int) - k ∧ (xs.length : Int) - k ≤ (xs.length : Int) ∧
      (xs.length : Int) ≤ (xs.length : Int) := by omega
  rw [if_pos hc]
  exact ⟨_, rfl⟩

/-- The loop body does not panic on a table without empty occurrence lists. -/
theorem genBody_ok (k : Int) (ngrams : Table) (raw : Nat) (s : GenState)
    (h0 : 0 ≤ k) (hk : k ≤ (s.result.length : Int))
    (hmax : (s.result.length : Int) + 1 ≤ maxInt)
    (hne : ∀ p ∈ ngrams, p.2 ≠ []) :
    ∃ o, genBody k ngrams raw s = .ok o := by
  unfold genBody
  cases hg : mapGet? ngrams (stringOf s.currentGram) with
  | none => exact ⟨none, rfl⟩
  | some p =>
    have hp : p ≠ [] := hne _ (mapGet?_mem _ _ _ hg)
    obtain ⟨r, hr, _⟩ := pickRune_mem p raw hp
    simp only [hr]
    obtain ⟨g, hg2⟩ := slice_suffix_ok (s.result ++ [r]) k h0
      (by simp; omega) (by simp; omega)
    rw [hg2]
    exact ⟨_, rfl⟩

/-- The loop does not panic on a table without empty occurrence lists. -/
theorem genLoop_ok (k : Int) (ngrams : Table) (trace : Nat → Nat) (h0 : 0 ≤ k)
    (hne : ∀ p ∈ ngrams, p.2 ≠ []) :
    ∀ (n i : Nat) (s : GenState), k ≤ (s.result.length : Int) →
      (s.result.length : Int) + (n : Int) ≤ maxInt →
      ∃ s1, genLoop k ngrams trace n i s = .ok s1 := by
  intro n
  induction n with
  | zero => intro i s _ _; exact ⟨s, rfl⟩
  | succ n ih =>
    intro i s hk hmax
    obtain ⟨o, ho⟩ := genBody_ok k ngrams (trace i) s h0 hk (by omega) hne
    rw [genLoop]
    cases o with
    | none => rw [ho]; exact ⟨s, rfl⟩
    | some s2 =>
      rw [ho]
      obtain ⟨r, hr⟩ := genBody_some _ _ _ _ _ ho
      have hl : s2.result.length = s.result.length + 1 := by rw [hr]; simp
      exact ih (i + 1) s2 (by omega) (by omega)

/-- With a non-negative order, a table without empty occurrence lists and an
output that fits the `int` range, `generateText` returns. -/
theorem generateText_ok (startTxt : GoString) (k iterations : Int) (ngrams : Table)
    (trace : Nat → Nat) (h0 : 0 ≤ k) (hne : ∀ p ∈ ngrams, p.2 ≠ [])
    (hmax : (startTxt.length : Int) + iterations ≤ maxInt)
    (hstart : (startTxt.length : Int) ≤ maxInt) :
    ∃ out, generateText startTxt k iterations ngrams trace = .ok out := by
  unfold generateText
  simp only []
  by_cases hlt : len (runesOf startTxt) < k
  · rw [if_pos hlt]; exact ⟨_, rfl⟩
  · rw [if_neg hlt]
    have hl : ((runesOf startTxt).length : Int) = (startTxt.length : Int) := by
      rw [length_runesOf]
    unfold len at hlt
    obtain ⟨g, hg⟩ := slice_suffix_ok (runesOf startTxt) k h0 (by omega) (by omega)
    rw [hg]
    obtain ⟨s1, hs1⟩ := genLoop_ok k ngrams trace h0 hne iterations.toNat 0
      ⟨runesOf startTxt, g⟩ (by simp only []; omega) (by simp only []; omega)
    simp only [hs1]
    exact ⟨_, rfl⟩

theorem genBody_none (order : Int) (ngrams : Table) (raw : Nat) (s : GenState)
    (h : mapGet? ngrams (stringOf s.currentGram) = none) :
    genBody order ngrams raw s = .ok none := by
  unfold genBody
  rw [h]

/-- A failed lookup ends the loop: if the state at the start of iteration
`j < n` has a context that is absent from the table, the loop returns that
state, whose result has grown by exactly `j` runes. -/
theorem genLoop_dead_end (order : Int) (ngrams : Table) (trace : Nat → Nat) :
    ∀ (n i : Nat) (s : GenState) (j : Nat) (st : GenState),
      (genStates order ngrams trace n i s)[j]? = some st → j < n →
      mapGet? ngrams (stringOf st.currentGram) = none →
      genLoop order ngrams trace n i s = .ok st ∧
        st.result.length = s.result.length + j := by
  intro n
  induction n with
  | zero => intro i s j st _ hj; omega
  | succ n ih =>
    intro i s j st hst hj habs
    cases j with
    | zero =>
      have hs : st = s := by
        rw [genStates] at hst
        split at hst <;> simp at hst <;> exact hst.symm
      subst hs
      rw [genLoop]
      rw [genBody_none _ _ _ _ habs]
      exact ⟨rfl, rfl⟩
    | succ j =>
      rw [genStates] at hst
      split at hst
      · rename_i s1 hb
        simp only [List.getElem?_cons_succ] at hst
        obtain ⟨h1, h2⟩ := ih (i + 1) s1 j st hst (by omega) habs
        obtain ⟨r, hr⟩ := genBody_some _ _ _ _ _ hb
        rw [genLoop]
        rw [hb]
        refine ⟨h1, ?_⟩
        rw [h2, hr]
        simp
        omega
      · simp at hst

/-- One loop iteration on a context whose occurrence list holds a single
distinct value `c`: whatever the random draw, `c` is appended. -/
theorem genBody_single (order : Int) (ngrams : Table) (raw : Nat) (s : GenState)
    (p : List Rune) (c : Rune) (g : List Rune)
    (hget : mapGet? ngrams (stringOf s.currentGram) = some p) (hp : p ≠ [])
    (hc : ∀ x ∈ p, x = c)
    (hs : slice (s.result ++ [c]) (wrapInt (len (s.result ++ [c]) - order))
      (len (s.result ++ [c])) = .ok g) :
    genBody order ngrams raw s = .ok (some ⟨s.result ++ [c], g⟩) := by
  obtain ⟨r, hr, hmem⟩ := pickRune_mem p raw hp
  have hrc : r = c := hc r hmem
  subst hrc
  unfold genBody
  rw [hget]
  simp only [hr, hs]

/-- The loop on an empty table stops at once. -/
theorem genLoop_empty_table (order : Int) (trace : Nat → Nat) (n i : Nat) (s : GenState) :
    genLoop order [] trace n i s = .ok s := by
  cases n with
  | zero => rfl
  | succ n =>
    rw [genLoop]
    rw [genBody_none order [] (trace i) s rfl]

/-- The code points of what `generateTextRaw` returns are what
`generateText` returns on the code points of the start text. -/
theorem generateTextRaw_decode (startTxt : RawString) (k iterations : Int) (ngrams : Table)
    (trace : Nat → Nat) :
    (generateTextRaw startTxt k iterations ngrams trace).map decode =
      generateText (decode startTxt) k iterations ngrams trace := by
  unfold generateTextRaw generateText
  simp only []
  split
  · rfl
  · cases slice (runesOf (decode startTxt))
        (wrapInt (len (runesOf (decode startTxt)) - k)) (len (runesOf (decode startTxt))) with
    | error e => rfl
    | ok g =>
      simp only []
      cases genLoop k ngrams trace iterations.toNat 0 ⟨runesOf (decode startTxt), g⟩ with
      | error e => rfl
      | ok s1 =>
        simp only [Except.map, decode_encode]

/-- With no loop iteration, `generateTextRaw` returns the start text itself
(early exit) or `string([]rune(startTxt))`. -/
theorem generateTextRaw_no_iteration (startTxt : RawString) (k iterations : Int)
    (ngrams : Table) (trace : Nat → Nat) (out : RawString) (hn : iterations.toNat = 0)
    (h : generateTextRaw startTxt k iterations ngrams trace = .ok out) :
    out = startTxt ∨ out = encode (decode startTxt) := by
  unfold generateTextRaw at h
  simp only [] at h
  rw [hn] at h
  split at h
  · simp only [Except.ok.injEq] at h
    exact Or.inl h.symm
  · split at h
    · simp at h
    · simp only [genLoop, Except.ok.injEq] at h
      rw [stringOf_runesOf] at h
      exact Or.inr h.symm

theorem generateTextRaw_budget_toNat (startTxt : RawString) (k i1 i2 : Int) (ngrams : Table)
    (trace : Nat → Nat) (h : i1.toNat = i2.toNat) :
    generateTextRaw startTxt k i1 ngrams trace = generateTextRaw startTxt k i2 ngrams trace := by
  unfold generateTextRaw
  rw [h]

/-! ## Claims about `generateText` -/

/-- C3: for every start text, order, iteration budget, table and
random-selection trace for which `generateText` returns, the start text is a
literal prefix of the output. -/
theorem generateText_startText_leads (startTxt : GoString) (order iterations : Int)
    (ngrams : Table) (trace : Nat → Nat) (out : GoString)
    (h : generateText startTxt order iterations ngrams trace = .ok out) :
    startTxt <+: out := by
  obtain ⟨extra, he, _⟩ := generateText_shape _ _ _ _ _ _ h
  exact ⟨extra, he.symm⟩

theorem generateText_startText_leads_witness :
    generateText (str [97, 98, 99]) 3 2 [(str [97, 98, 99], [100]), (str [98, 99, 100], [-1, 101])]
        (fun _ => 0) = .ok (str [97, 98, 99, 100, 0xFFFD]) ∧
      str [97, 98, 99] <+: str [97, 98, 99, 100, 0xFFFD] :=
  ⟨by rfl, generateText_startText_leads (str [97, 98, 99]) 3 2
      [(str [97, 98, 99], [100]), (str [98, 99, 100], [-1, 101])] (fun _ => 0)
      (str [97, 98, 99, 100, 0xFFFD]) (by rfl)⟩

/-- C6: for every start text, order `k > 0`, non-negative iteration budget,
table with non-empty occurrence lists and random-selection trace,
`generateText` returns a text of at most `len startTxt + iterations` code
points (where `len startTxt + iterations` is a Go `int`, at most `maxInt`). -/
theorem generateText_growth_bound (startTxt : GoString) (k iterations : Int)
    (ngrams : Table) (trace : Nat → Nat) (hk : 0 < k) (hit : 0 ≤ iterations)
    (hne : ∀ p ∈ ngrams, p.2 ≠ [])
    (hmax : (startTxt.length : Int) + iterations ≤ maxInt) :
    ∃ out, generateText startTxt k iterations ngrams trace = .ok out ∧
      (out.length : Int) ≤ (startTxt.length : Int) + iterations := by
  obtain ⟨out, ho⟩ := generateText_ok startTxt k iterations ngrams trace (by omega) hne hmax
    (by omega)
  obtain ⟨extra, he, hl⟩ := generateText_shape _ _ _ _ _ _ ho
  refine ⟨out, ho, ?_⟩
  rw [he, List.length_append]
  push_cast
  omega

theorem generateText_growth_bound_witness :
    ((0 : Int) < 2 ∧ (0 : Int) ≤ 3 ∧
      (∀ p ∈ ([(str [97, 98], [99]), (str [98, 99], [97, 100])] : Table), p.2 ≠ []) ∧
      (((str [97, 98]).length : Nat) : Int) + 3 ≤ maxInt) ∧
    ∃ out, generateText (str [97, 98]) 2 3 [(str [97, 98], [99]), (str [98, 99], [97, 100])]
        (fun i => i + 1) = .ok out ∧
      (out.length : Int) ≤ (((str [97, 98]).length : Nat) : Int) + 3 :=
  ⟨⟨by decide, by decide, by decide, by decide⟩,
    generateText_growth_bound (str [97, 98]) 2 3
      [(str [97, 98], [99]), (str [98, 99], [97, 100])] (fun i => i + 1)
      (by decide) (by decide) (by decide) (by decide)⟩

/-- C5 (as amended): if the lookup performed at the start of loop iteration
`j`, with `j < iterations`, finds the current context absent from the table,
then `generateText` returns the text accumulated up to that lookup, which has
`len startTxt + j`, hence strictly fewer than `len startTxt + iterations`,
code points. -/
theorem generateText_dead_end (startTxt : GoString) (k iterations : Int) (ngrams : Table)
    (trace : Nat → Nat) (j : Nat) (st : GenState)
    (hst : (runStates startTxt k iterations ngrams trace)[j]? = some st)
    (hj : (j : Int) < iterations)
    (habs : mapGet? ngrams (stringOf st.currentGram) = none) :
    generateText startTxt k iterations ngrams trace = .ok (stringOf st.result) ∧
      (stringOf st.result).length = startTxt.length + j ∧
      ((stringOf st.result).length : Int) < (startTxt.length : Int) + iterations := by
  unfold runStates at hst
  simp only [] at hst
  unfold generateText
  simp only []
  split at hst
  · simp at hst
  · rename_i hlt
    rw [if_neg hlt]
    split at hst
    · simp at hst
    · rename_i g hg
      obtain ⟨h1, h2⟩ := genLoop_dead_end k ngrams trace iterations.toNat 0 _ j st hst
        (by omega) habs
      rw [h1]
      simp only [length_runesOf] at h2
      refine ⟨rfl, ?_, ?_⟩
      · rw [length_stringOf, h2]
      · rw [length_stringOf, h2]
        push_cast
        omega

theorem generateText_dead_end_witness :
    ((runStates (str [97, 98, 99]) 3 5 [(str [97, 98, 99], [100])] (fun _ => 0))[1]? =
        some ⟨[97, 98, 99, 100], [98, 99, 100]⟩ ∧
      ((1 : Nat) : Int) < 5 ∧
      mapGet? [(str [97, 98, 99], [100])]
        (stringOf (GenState.mk [97, 98, 99, 100] [98, 99, 100]).currentGram) = none) ∧
    (generateText (str [97, 98, 99]) 3 5 [(str [97, 98, 99], [100])] (fun _ => 0) =
        .ok (stringOf (GenState.mk [97, 98, 99, 100] [98, 99, 100]).result) ∧
      (stringOf (GenState.mk [97, 98, 99, 100] [98, 99, 100]).result).length =
        (str [97, 98, 99]).length + 1 ∧
      ((stringOf (GenState.mk [97, 98, 99, 100] [98, 99, 100]).result).length : Int) <
        (((str [97, 98, 99]).length : Nat) : Int) + 5) :=
  ⟨⟨by rfl, by decide, by rfl⟩,
    generateText_dead_end (str [97, 98, 99]) 3 5 [(str [97, 98, 99], [100])] (fun _ => 0) 1
      ⟨[97, 98, 99, 100], [98, 99, 100]⟩ (by rfl) (by decide) (by rfl)⟩

/-- C5 (as stated) fails: with budget 1 the run of
`generateText("abc", 3, 1, {abc -> [d]})` ends in a state whose current
context `bcd`, the last three code points of the accumulated result, is
absent from the table, yet the output `abcd` has `len startTxt + iterations`
code points, not strictly fewer. -/
theorem generateText_dead_end_after_budget :
    runStates (str [97, 98, 99]) 3 1 [(str [97, 98, 99], [100])] (fun _ => 0) =
        [⟨[97, 98, 99], [97, 98, 99]⟩, ⟨[97, 98, 99, 100], [98, 99, 100]⟩] ∧
      mapGet? [(str [97, 98, 99], [100])] (stringOf [98, 99, 100]) = none ∧
      generateText (str [97, 98, 99]) 3 1 [(str [97, 98, 99], [100])] (fun _ => 0) =
        .ok (str [97, 98, 99, 100]) ∧
      ¬ ((((str [97, 98, 99, 100]).length : Nat) : Int) <
          (((str [97, 98, 99]).length : Nat) : Int) + 1) :=
  ⟨by rfl, by rfl, by rfl, by decide⟩

/-- C7: for every random-selection trace,
`generateText("abc", 3, 5, processText("abcabcabc", 3))` returns exactly
`"abcabcab"`. -/
theorem pipeline_abc_deterministic (trace : Nat → Nat) :
    runPipeline (str [97, 98, 99, 97, 98, 99, 97, 98, 99]) (str [97, 98, 99]) 3 5 trace =
      .ok (str [97, 98, 99, 97, 98, 99, 97, 98]) := by
  have ht : processText (str [97, 98, 99, 97, 98, 99, 97, 98, 99]) 3 =
      .ok [(str [97, 98, 99], [97, 97]), (str [98, 99, 97], [98, 98]),
           (str [99, 97, 98], [99, 99])] := by rfl
  unfold runPipeline
  rw [ht]
  simp only []
  have h1 := fun raw => genBody_single 3 [(str [97, 98, 99], [97, 97]),
      (str [98, 99, 97], [98, 98]), (str [99, 97, 98], [99, 99])] raw
      ⟨[97, 98, 99], [97, 98, 99]⟩ [97, 97] 97 [98, 99, 97]
      (by rfl) (by decide) (by decide) (by rfl)
  have h2 := fun raw => genBody_single 3 [(str [97, 98, 99], [97, 97]),
      (str [98, 99, 97], [98, 98]), (str [99, 97, 98], [99, 99])] raw
      ⟨[97, 98, 99, 97], [98, 99, 97]⟩ [98, 98] 98 [99, 97, 98]
      (by rfl) (by decide) (by decide) (by rfl)
  have h3 := fun raw => genBody_single 3 [(str [97, 98, 99], [97, 97]),
      (str [98, 99, 97], [98, 98]), (str [99, 97, 98], [99, 99])] raw
      ⟨[97, 98, 99, 97, 98], [99, 97, 98]⟩ [99, 99] 99 [97, 98, 99]
      (by rfl) (by decide) (by decide) (by rfl)
  have h4 := fun raw => genBody_single 3 [(str [97, 98, 99], [97, 97]),
      (str [98, 99, 97], [98, 98]), (str [99, 97, 98], [99, 99])] raw
      ⟨[97, 98, 99, 97, 98, 99], [97, 98, 99]⟩ [97, 97] 97 [98, 99, 97]
      (by rfl) (by decide) (by decide) (by rfl)
  have h5 := fun raw => genBody_single 3 [(str [97, 98, 99], [97, 97]),
      (str [98, 99, 97], [98, 98]), (str [99, 97, 98], [99, 99])] raw
      ⟨[97, 98, 99, 97, 98, 99, 97], [98, 99, 97]⟩ [98, 98] 98 [99, 97, 98]
      (by rfl) (by decide) (by decide) (by rfl)
  have hloop : genLoop 3 [(str [97, 98, 99], [97, 97]), (str [98, 99, 97], [98, 98]),
      (str [99, 97, 98], [99, 99])] trace 5 0 ⟨[97, 98, 99], [97, 98, 99]⟩ =
      .ok ⟨[97, 98, 99, 97, 98, 99, 97, 98], [99, 97, 98]⟩ := by
    simp only [List.cons_append, List.nil_append] at h1 h2 h3 h4 h5
    simp only [genLoop, h1, h2, h3, h4, h5]
  have hslice : slice (runesOf (str [97, 98, 99]))
      (wrapInt (len (runesOf (str [97, 98, 99])) - 3)) (len (runesOf (str [97, 98, 99]))) =
      .ok [97, 98, 99] := by rfl
  have hr : runesOf (str [97, 98, 99]) = [97, 98, 99] := by rfl
  have hlt : ¬ (len (runesOf (str [97, 98, 99])) < 3) := by decide
  have hn : (5 : Int).toNat = 5 := by rfl
  unfold generateText
  simp only []
  rw [if_neg hlt, hslice]
  simp only []
  rw [hn, hr, hloop]
  rfl

/-- C8: for every order `k` (in particular every `k > 0`) and every corpus
with at most `k` code points, `processText` returns the empty table and does
not fail. -/
theorem processText_short_corpus (corpus : GoString) (k : Int)
    (hkmax : k ≤ maxInt) (hshort : (corpus.length : Int) ≤ k) :
    processText corpus k = .ok [] := by
  unfold processText
  simp only []
  rw [processText_no_window corpus k hkmax hshort]
  rfl

theorem processText_short_corpus_witness :
    ((5 : Int) ≤ maxInt ∧ (((str [97, 98]).length : Nat) : Int) ≤ 5) ∧
      processText (str [97, 98]) 5 = .ok [] :=
  ⟨⟨by decide, by decide⟩,
    processText_short_corpus (str [97, 98]) 5 (by decide) (by decide)⟩

/-- C9 (as amended): for every order `k` (in particular every `k > 0`),
corpus with at most `k` code points, start text with at least `k` code
points, iteration budget and random-selection trace,
`generateText(startText, k, iterations, processText(corpus, k))` returns
`string([]rune(startText))`: the code points of the start text, each in its
UTF-8 encoding.  That is the start text unchanged when the start text is
well-formed UTF-8 (the text `encode s` of some code-point sequence `s`). -/
theorem pipeline_short_corpus (corpus startTxt : RawString) (k iterations : Int)
    (trace : Nat → Nat) (hshort : ((decode corpus).length : Int) ≤ k)
    (hstart : k ≤ ((decode startTxt).length : Int))
    (hmax : ((decode startTxt).length : Int) ≤ maxInt) :
    runPipelineRaw corpus startTxt k iterations trace = .ok (encode (decode startTxt)) ∧
      ∀ s : GoString, startTxt = encode s →
        runPipelineRaw corpus startTxt k iterations trace = .ok startTxt := by
  have hempty : processText (decode corpus) k = .ok [] := by
    unfold processText
    simp only []
    rw [processText_no_window (decode corpus) k (by omega) hshort]
    rfl
  have hlt : ¬ (len (runesOf (decode startTxt)) < k) := by
    unfold len; rw [length_runesOf]; omega
  obtain ⟨g, hg⟩ := slice_suffix_ok (runesOf (decode startTxt)) k (by omega)
    (by rw [length_runesOf]; exact hstart) (by rw [length_runesOf]; exact hmax)
  have hrun : runPipelineRaw corpus startTxt k iterations trace =
      .ok (encode (decode startTxt)) := by
    unfold runPipelineRaw
    rw [hempty]
    simp only []
    unfold generateTextRaw
    simp only []
    rw [if_neg hlt, hg]
    simp only []
    rw [genLoop_empty_table]
    simp only [stringOf_runesOf]
  refine ⟨hrun, ?_⟩
  intro s hs
  rw [hrun, hs, decode_encode]

theorem pipeline_short_corpus_witness :
    ((((decode (encode (str [97, 98]))).length : Nat) : Int) ≤ 5 ∧
      (5 : Int) ≤ (((decode (encode (str [104, 101, 108, 108, 111, 33]))).length : Nat) : Int) ∧
      (((decode (encode (str [104, 101, 108, 108, 111, 33]))).length : Nat) : Int) ≤ maxInt) ∧
      (runPipelineRaw (encode (str [97, 98])) (encode (str [104, 101, 108, 108, 111, 33]))
          5 500 (fun i => i) =
          .ok (encode (decode (encode (str [104, 101, 108, 108, 111, 33])))) ∧
        ∀ s : GoString, encode (str [104, 101, 108, 108, 111, 33]) = encode s →
          runPipelineRaw (encode (str [97, 98])) (encode (str [104, 101, 108, 108, 111, 33]))
            5 500 (fun i => i) = .ok (encode (str [104, 101, 108, 108, 111, 33]))) :=
  ⟨⟨by decide, by decide, by decide⟩,
    pipeline_short_corpus (encode (str [97, 98])) (encode (str [104, 101, 108, 108, 111, 33]))
      5 500 (fun i => i) (by decide) (by decide) (by decide)⟩

/-- C9 (as stated) fails: with corpus "ab", order 5 and the start text of
the five bytes `ff ff ff ff ff` (five code points for `[]rune`, none of them
valid UTF-8), the pipeline returns five times U+FFFD in its UTF-8 encoding,
which is not the start text. -/
theorem pipeline_short_corpus_reencodes :
    (((decode (encode (str [97, 98]))).length : Nat) : Int) ≤ 5 ∧
      (5 : Int) ≤ (((decode [Piece.invalidByte 255, .invalidByte 255, .invalidByte 255,
        .invalidByte 255, .invalidByte 255]).length : Nat) : Int) ∧
      runPipelineRaw (encode (str [97, 98]))
          [.invalidByte 255, .invalidByte 255, .invalidByte 255, .invalidByte 255,
           .invalidByte 255] 5 500 (fun _ => 0) =
        .ok (encode (str [0xFFFD, 0xFFFD, 0xFFFD, 0xFFFD, 0xFFFD])) ∧
      encode (str [0xFFFD, 0xFFFD, 0xFFFD, 0xFFFD, 0xFFFD]) ≠
        [Piece.invalidByte 255, .invalidByte 255, .invalidByte 255, .invalidByte 255,
         .invalidByte 255] :=
  ⟨by decide, by decide, by rfl, by decide⟩

/-- C10 (as amended): `processText` validates nothing.  For an order `k < 0`
(with `len corpus - k` inside the `int` range) no table is returned: the
first window slice panics with a slice-bounds error.  For `k = 0` the call
is accepted: it returns the empty table for the empty corpus and otherwise
the table whose only key is the empty context, holding all code points of
the corpus in order. -/
theorem processText_nonpositive_order (corpus : GoString) (k : Int) (hk : k ≤ 0)
    (hrange : (corpus.length : Int) - k ≤ maxInt) :
    processText corpus k =
      if k < 0 then .error .sliceBounds
      else if corpus = [] then .ok []
      else .ok [(([] : GoString), runesOf corpus)] := by
  by_cases hneg : k < 0
  · rw [if_pos hneg]
    exact processText_order_negative corpus k hneg hrange
  · rw [if_neg hneg]
    have hz : k = 0 := by omega
    subst hz
    exact processText_order_zero corpus (by omega)

theorem processText_nonpositive_order_witness :
    ((-1 : Int) ≤ 0 ∧ (((str [97, 98]).length : Nat) : Int) - (-1) ≤ maxInt) ∧
      processText (str [97, 98]) (-1) =
        if (-1 : Int) < 0 then .error .sliceBounds
        else if str [97, 98] = [] then .ok []
        else .ok [(([] : GoString), runesOf (str [97, 98]))] :=
  ⟨⟨by decide, by decide⟩,
    processText_nonpositive_order (str [97, 98]) (-1) (by decide) (by decide)⟩

/-- C10 (as stated) fails: `processText("ab", 0)` is not rejected; it returns
a table whose only key is the empty context. -/
theorem processText_order_zero_accepted :
    processText (str [97, 98]) 0 = .ok [(([] : GoString), [97, 98])] ∧
      mapGet? [(([] : GoString), [97, 98])] [] = some [97, 98] :=
  ⟨by rfl, by rfl⟩

/-! ## Keys of the table -/

theorem followersUpTo_ne_nil_iff (corpus : GoString) (k : Nat) (ctx : GoString) :
    ∀ n, followersUpTo corpus k ctx n ≠ [] ↔ ∃ i, i < n ∧ window corpus i k = ctx := by
  intro n
  induction n with
  | zero => simp [followersUpTo]
  | succ n ih =>
    rw [followersUpTo]
    constructor
    · intro h
      by_cases hw : window corpus n k = ctx
      · exact ⟨n, by omega, hw⟩
      · rw [if_neg hw, List.append_nil] at h
        obtain ⟨i, hi, hiw⟩ := ih.mp h
        exact ⟨i, by omega, hiw⟩
    · rintro ⟨i, hi, hiw⟩
      by_cases hw : window corpus n k = ctx
      · rw [if_pos hw]
        simp
      · have hin : i < n := by
          rcases Nat.lt_or_ge i n with h | h
          · exact h
          · have : i = n := by omega
            subst this
            exact absurd hiw hw
        have := ih.mpr ⟨i, hin, hiw⟩
        rw [if_neg hw, List.append_nil]
        exact this

theorem mem_followersUpTo_iff (corpus : GoString) (k : Nat) (ctx : GoString) (r : Rune) :
    ∀ n, r ∈ followersUpTo corpus k ctx n ↔
      ∃ i, i < n ∧ window corpus i k = ctx ∧ runeAt corpus (i + k) = r := by
  intro n
  induction n with
  | zero => simp [followersUpTo]
  | succ n ih =>
    rw [followersUpTo, List.mem_append, ih]
    constructor
    · rintro (⟨i, hi, hw, hr⟩ | h)
      · exact ⟨i, by omega, hw, hr⟩
      · by_cases hw : window corpus n k = ctx
        · rw [if_pos hw, List.mem_singleton] at h
          exact ⟨n, by omega, hw, h.symm⟩
        · rw [if_neg hw] at h
          simp at h
    · rintro ⟨i, hi, hw, hr⟩
      by_cases hin : i = n
      · subst hin
        right
        rw [if_pos hw, List.mem_singleton]
        exact hr.symm
      · left
        exact ⟨i, by omega, hw, hr⟩

theorem keys_mapSet (m : Table) (key : GoString) (v : List Rune) :
    (mapSet m key v).map Prod.fst =
      if key ∈ m.map Prod.fst then m.map Prod.fst else m.map Prod.fst ++ [key] := by
  induction m with
  | nil => simp [mapSet]
  | cons p rest ih =>
    obtain ⟨k, w⟩ := p
    by_cases hk : k = key
    · subst hk
      simp [mapSet]
    · have hk2 : ¬ key = k := fun h => hk h.symm
      by_cases hmem : key ∈ rest.map Prod.fst
      · rw [if_pos hmem] at ih
        have hm2 : key ∈ ((k, w) :: rest).map Prod.fst := by
          rw [List.map_cons]; exact List.mem_cons_of_mem _ hmem
        rw [if_pos hm2]
        simp only [mapSet, hk, if_false, List.map_cons, ih]
      · rw [if_neg hmem] at ih
        have hm2 : ¬ key ∈ ((k, w) :: rest).map Prod.fst := by
          rw [List.map_cons, List.mem_cons]
          intro h
          rcases h with h | h
          · exact hk2 h
          · exact hmem h
        rw [if_neg hm2]
        simp only [mapSet, hk, if_false, List.map_cons, ih, List.cons_append]

theorem nodup_keys_mapSet (m : Table) (key : GoString) (v : List Rune)
    (h : (m.map Prod.fst).Nodup) : ((mapSet m key v).map Prod.fst).Nodup := by
  rw [keys_mapSet]
  by_cases hmem : key ∈ m.map Prod.fst
  · rw [if_pos hmem]; exact h
  · rw [if_neg hmem]
    rw [List.nodup_append]
    refine ⟨h, List.nodup_singleton _, ?_⟩
    intro a ha hb
    rw [List.mem_singleton] at hb
    subst hb
    exact hmem ha

theorem nodup_keys_recordFollower (m : Table) (gram : GoString) (next : Rune)
    (h : (m.map Prod.fst).Nodup) : ((recordFollower m gram next).map Prod.fst).Nodup := by
  unfold recordFollower
  apply nodup_keys_mapSet
  by_cases hnil : mapGet m gram = []
  · simp only [hnil, if_true]
    exact nodup_keys_mapSet _ _ _ h
  · simp only [hnil, if_false]
    exact h

/-- The keys of the table stay pairwise distinct through the loop. -/
theorem processLoop_nodup (rs : List Rune) (order : Int) :
    ∀ (n i : Nat) (t t1 : Table), processLoop rs order n i t = .ok t1 →
      (t.map Prod.fst).Nodup → (t1.map Prod.fst).Nodup := by
  intro n
  induction n with
  | zero =>
    intro i t t1 h hn
    rw [processLoop] at h
    simp only [Except.ok.injEq] at h
    rw [← h]; exact hn
  | succ n ih =>
    intro i t t1 h hn
    rw [processLoop] at h
    split at h
    · simp at h
    · simp only [] at h
      split at h
      · simp at h
      · exact ih _ _ _ h (nodup_keys_recordFollower _ _ _ hn)

theorem mapGet?_of_mem (m : Table) (h : (m.map Prod.fst).Nodup) (key : GoString)
    (v : List Rune) (hmem : (key, v) ∈ m) : mapGet? m key = some v := by
  induction m with
  | nil => simp at hmem
  | cons p rest ih =>
    obtain ⟨k, w⟩ := p
    rw [List.map_cons, List.nodup_cons] at h
    rw [mapGet?]
    rcases List.mem_cons.mp hmem with heq | hrest
    · simp only [Prod.mk.injEq] at heq
      rw [if_pos heq.1.symm, heq.2]
    · have hk : ¬ k = key := by
        intro hk
        apply h.1
        rw [hk]
        exact List.mem_map.mpr ⟨(key, v), hrest, rfl⟩
      rw [if_neg hk]
      exact ih h.2 hrest

/-- Complete description of the table `processText` returns for an order
`k ≥ 0`: its keys are pairwise distinct, and a lookup answers with the
followers of the context among the windows at positions `< len - k`. -/
theorem processText_table (corpus : GoString) (k : Nat)
    (hkmax : (k : Int) ≤ maxInt) (hlen : (corpus.length : Int) ≤ maxInt) :
    ∃ t, processText corpus (k : Int) = .ok t ∧ (t.map Prod.fst).Nodup ∧
      (∀ ctx, mapGet? t ctx = specGet corpus k (corpus.length - k) ctx) := by
  obtain ⟨t, h1, h2, _⟩ := processText_spec corpus k hkmax hlen
  refine ⟨t, h1, ?_, h2⟩
  unfold processText at h1
  exact processLoop_nodup _ _ _ _ _ _ h1 (by simp)

theorem specGet_eq_some (corpus : GoString) (k n : Nat) (ctx : GoString) (v : List Rune)
    (h : specGet corpus k n ctx = some v) :
    v = followersUpTo corpus k ctx n ∧ followersUpTo corpus k ctx n ≠ [] := by
  unfold specGet at h
  by_cases he : followersUpTo corpus k ctx n = []
  · rw [if_pos he] at h; simp at h
  · rw [if_neg he] at h
    simp only [Option.some.injEq] at h
    exact ⟨h.symm, he⟩

/-- A context is a key exactly when it is one of the windows. -/
theorem key_iff_window (corpus : GoString) (k : Nat) (t : Table)
    (hnd : (t.map Prod.fst).Nodup)
    (hget : ∀ ctx, mapGet? t ctx = specGet corpus k (corpus.length - k) ctx)
    (ctx : GoString) :
    (∃ v, (ctx, v) ∈ t) ↔ ∃ i, i + k < corpus.length ∧ window corpus i k = ctx := by
  constructor
  · rintro ⟨v, hv⟩
    have h1 := mapGet?_of_mem t hnd ctx v hv
    rw [hget] at h1
    obtain ⟨_, hne⟩ := specGet_eq_some _ _ _ _ _ h1
    obtain ⟨i, hi, hw⟩ := (followersUpTo_ne_nil_iff corpus k ctx _).mp hne
    exact ⟨i, by omega, hw⟩
  · rintro ⟨i, hi, hw⟩
    have hne := (followersUpTo_ne_nil_iff corpus k ctx (corpus.length - k)).mpr
      ⟨i, by omega, hw⟩
    refine ⟨followersUpTo corpus k ctx (corpus.length - k), ?_⟩
    apply mapGet?_mem
    rw [hget]
    unfold specGet
    rw [if_neg hne]

/-- No key of the table is stored with an empty occurrence list. -/
theorem table_lists_nonempty (corpus : GoString) (k : Nat) (t : Table)
    (hnd : (t.map Prod.fst).Nodup)
    (hget : ∀ ctx, mapGet? t ctx = specGet corpus k (corpus.length - k) ctx) :
    ∀ p ∈ t, p.2 ≠ [] := by
  intro p hp
  have h2 := mapGet?_of_mem t hnd p.1 p.2 hp
  rw [hget] at h2
  obtain ⟨hv, hne⟩ := specGet_eq_some _ _ _ _ _ h2
  rw [hv]
  exact hne

theorem window_infix {α : Type} (xs : List α) (i n : Nat) : window xs i n <:+: xs := by
  unfold window
  exact List.IsInfix.trans (List.take_prefix _ _).isInfix (List.drop_suffix _ _).isInfix

theorem window_succ (corpus : GoString) (i k : Nat) (h : i + k < corpus.length) :
    window corpus i k ++ [toScalar (runeAt corpus (i + k))] = window corpus i (k + 1) := by
  rw [runeAt_eq corpus (i + k) h, toScalar_val]
  unfold window
  rw [List.take_succ]
  have hk : k < (corpus.drop i).length := by rw [List.length_drop]; omega
  rw [List.getElem?_eq_getElem hk, List.getElem_drop]
  rfl

/-- Every rune stored in the table follows its context somewhere in the
corpus: context and rune together are a contiguous piece of the corpus. -/
theorem table_sound (corpus : GoString) (k : Nat) (t : Table)
    (hget : ∀ ctx, mapGet? t ctx = specGet corpus k (corpus.length - k) ctx)
    (ctx : GoString) (v : List Rune) (r : Rune)
    (hv : mapGet? t ctx = some v) (hr : r ∈ v) :
    (ctx ++ [toScalar r]) <:+: corpus := by
  rw [hget] at hv
  obtain ⟨hv2, _⟩ := specGet_eq_some _ _ _ _ _ hv
  rw [hv2] at hr
  obtain ⟨i, hi, hw, hri⟩ := (mem_followersUpTo_iff corpus k ctx r _).mp hr
  rw [← hw, ← hri, window_succ corpus i k (by omega)]
  exact window_infix corpus i (k + 1)

theorem pickRune_ok_mem (p : List Rune) (raw : Nat) (r : Rune)
    (h : pickRune p raw = .ok r) : r ∈ p := by
  by_cases hp : p = []
  · subst hp
    simp [pickRune, intn, len] at h
  · obtain ⟨r1, h1, hm⟩ := pickRune_mem p raw hp
    rw [h1] at h
    simp only [Except.ok.injEq] at h
    rw [← h]
    exact hm

/-- The slice `result[resultLen-order : resultLen]` is the last `order`
elements. -/
theorem slice_suffix_eq (xs : List Rune) (k : Nat) (hk : k ≤ xs.length)
    (hmax : (xs.length : Int) ≤ maxInt) :
    slice xs (wrapInt (len xs - (k : Int))) (len xs) = .ok (xs.drop (xs.length - k)) := by
  unfold len
  have hw : wrapInt ((xs.length : Int) - (k : Int)) = (xs.length : Int) - (k : Int) := by
    apply wrapInt_eq
    · have hM := maxInt_val; have hm := minInt_val; omega
    · have hM := maxInt_val; have hm := minInt_val; omega
  rw [hw]
  unfold slice len
  have hc : (0 : Int) ≤ (xs.length : Int) - (k : Int) ∧
      (xs.length : Int) - (k : Int) ≤ (xs.length : Int) ∧
      (xs.length : Int) ≤ (xs.length : Int) := by omega
  rw [if_pos hc]
  have h1 : ((xs.length : Int) - (k : Int)).toNat = xs.length - k := by omega
  have h2 : ((xs.length : Int) - ((xs.length : Int) - (k : Int))).toNat = k := by omega
  rw [h1, h2]
  congr 1
  apply List.take_of_length_le
  rw [List.length_drop]
  omega

theorem window_append_left {α : Type} (xs ys : List α) (a b : Nat)
    (h : a + b ≤ xs.length) : window (xs ++ ys) a b = window xs a b := by
  unfold window
  rw [List.drop_append_of_le_length (by omega), List.take_append_of_le_length]
  rw [List.length_drop]
  omega

theorem window_append_last {α : Type} (xs : List α) (y : α) (k : Nat)
    (hk : k ≤ xs.length) :
    window (xs ++ [y]) (xs.length - k) (k + 1) = xs.drop (xs.length - k) ++ [y] := by
  unfold window
  rw [List.drop_append_of_le_length (by omega)]
  apply List.take_of_length_le
  rw [List.length_append, List.length_drop, List.length_singleton]
  omega

/-- One iteration of the generator on a table whose runes all follow their
context in the corpus: the appended rune follows the last `k` code points of
the result in the corpus, and the new context is again the last `k` runes. -/
theorem genBody_recorded (corpus : GoString) (k : Nat) (t : Table) (raw : Nat)
    (s s1 : GenState)
    (hsound : ∀ ctx v r, mapGet? t ctx = some v → r ∈ v → (ctx ++ [toScalar r]) <:+: corpus)
    (hk : k ≤ s.result.length)
    (hgram : s.currentGram = s.result.drop (s.result.length - k))
    (hmax : (s.result.length : Int) + 1 ≤ maxInt)
    (h : genBody (k : Int) t raw s = .ok (some s1)) :
    ∃ r, s1.result = s.result ++ [r] ∧
      s1.currentGram = s1.result.drop (s1.result.length - k) ∧
      (stringOf (s.result.drop (s.result.length - k)) ++ [toScalar r]) <:+: corpus := by
  unfold genBody at h
  split at h
  · simp at h
  · rename_i p hp
    split at h
    · simp at h
    · rename_i r hr
      simp only [] at h
      have hsl := slice_suffix_eq (s.result ++ [r]) k (by simp; omega) (by simp; omega)
      rw [hsl] at h
      simp only [Except.ok.injEq, Option.some.injEq] at h
      refine ⟨r, by rw [← h], by rw [← h], ?_⟩
      rw [← hgram]
      exact hsound _ p r hp (pickRune_ok_mem p raw r hr)

/-- Through the loop, every rune appended at a position `j ≥ start` closes a
window of `k + 1` runes that is a contiguous piece of the corpus. -/
theorem genLoop_recorded (corpus : GoString) (k : Nat) (t : Table) (trace : Nat → Nat)
    (start : Nat) (hstart : k ≤ start)
    (hsound : ∀ ctx v r, mapGet? t ctx = some v → r ∈ v → (ctx ++ [toScalar r]) <:+: corpus) :
    ∀ (n i : Nat) (s s1 : GenState), genLoop (k : Int) t trace n i s = .ok s1 →
      start ≤ s.result.length →
      s.currentGram = s.result.drop (s.result.length - k) →
      (s.result.length : Int) + (n : Int) ≤ maxInt →
      (∀ j, start ≤ j → j < s.result.length →
        stringOf (window s.result (j - k) (k + 1)) <:+: corpus) →
      ∀ j, start ≤ j → j < s1.result.length →
        stringOf (window s1.result (j - k) (k + 1)) <:+: corpus := by
  intro n
  induction n with
  | zero =>
    intro i s s1 h _ _ _ hinv
    rw [genLoop] at h
    simp only [Except.ok.injEq] at h
    rw [← h]
    exact hinv
  | succ n ih =>
    intro i s s1 h hlen hgram hmax hinv
    rw [genLoop] at h
    split at h
    · simp at h
    · simp only [Except.ok.injEq] at h
      rw [← h]
      exact hinv
    · rename_i s2 hb
      obtain ⟨r, hr, hgram2, hrec⟩ := genBody_recorded corpus k t (trace i) s s2 hsound
        (by omega) hgram (by omega) hb
      have hl2 : s2.result.length = s.result.length + 1 := by rw [hr]; simp
      apply ih (i + 1) s2 s1 h (by omega) hgram2 (by omega)
      intro j hj1 hj2
      rw [hr]
      by_cases hjl : j < s.result.length
      · rw [window_append_left _ _ _ _ (by omega)]
        exact hinv j hj1 hjl
      · have hje : j = s.result.length := by omega
        rw [hje, window_append_last _ _ _ (by omega), stringOf_append]
        exact hrec

/-- A pick from an occurrence list with a single distinct value does not
depend on the random draw. -/
theorem pickRune_single (p : List Rune) (c : Rune) (raw : Nat) (hc : c ∈ p)
    (hall : ∀ x ∈ p, x = c) : pickRune p raw = .ok c := by
  obtain ⟨r, hr, hm⟩ := pickRune_mem p raw (List.ne_nil_of_mem hc)
  rw [hr, hall r hm]

theorem genBody_trace_free (order : Int) (t : Table) (raw1 raw2 : Nat) (s : GenState)
    (hsingle : ∀ p ∈ t, ∃ c, c ∈ p.2 ∧ ∀ x ∈ p.2, x = c) :
    genBody order t raw1 s = genBody order t raw2 s := by
  unfold genBody
  cases hg : mapGet? t (stringOf s.currentGram) with
  | none => rfl
  | some p =>
    obtain ⟨c, hc, hall⟩ := hsingle _ (mapGet?_mem _ _ _ hg)
    simp only [pickRune_single p c raw1 hc hall, pickRune_single p c raw2 hc hall]

theorem genLoop_trace_free (order : Int) (t : Table) (trace1 trace2 : Nat → Nat)
    (hsingle : ∀ p ∈ t, ∃ c, c ∈ p.2 ∧ ∀ x ∈ p.2, x = c) :
    ∀ (n i : Nat) (s : GenState),
      genLoop order t trace1 n i s = genLoop order t trace2 n i s := by
  intro n
  induction n with
  | zero => intro i s; rw [genLoop, genLoop]
  | succ n ih =>
    intro i s
    rw [genLoop, genLoop, genBody_trace_free order t (trace1 i) (trace2 i) s hsingle]
    cases genBody order t (trace2 i) s with
    | error e => rfl
    | ok o =>
      cases o with
      | none => rfl
      | some s2 => exact ih (i + 1) s2

theorem genBody_eq_none (order : Int) (t : Table) (raw : Nat) (s : GenState)
    (h : genBody order t raw s = .ok none) :
    mapGet? t (stringOf s.currentGram) = none := by
  unfold genBody at h
  split at h
  · assumption
  · split at h
    · simp at h
    · simp only [] at h
      split at h <;> simp at h

/-- A loop in which no lookup fails runs all its iterations: the result
grows by exactly `n` runes. -/
theorem genLoop_full (order : Int) (t : Table) (trace : Nat → Nat) :
    ∀ (n i : Nat) (s s1 : GenState), genLoop order t trace n i s = .ok s1 →
      (∀ j st, j < n → (genStates order t trace n i s)[j]? = some st →
        mapGet? t (stringOf st.currentGram) ≠ none) →
      s1.result.length = s.result.length + n := by
  intro n
  induction n with
  | zero =>
    intro i s s1 h _
    rw [genLoop] at h
    simp only [Except.ok.injEq] at h
    rw [← h]; rfl
  | succ n ih =>
    intro i s s1 h hall
    rw [genLoop] at h
    split at h
    · simp at h
    · rename_i hb
      exfalso
      apply hall 0 s (by omega) _ (genBody_eq_none _ _ _ _ hb)
      rw [genStates, hb]
      rfl
    · rename_i s2 hb
      obtain ⟨r, hr⟩ := genBody_some _ _ _ _ _ hb
      have hl := ih (i + 1) s2 s1 h (by
        intro j st hj hst
        apply hall (j + 1) st (by omega)
        rw [genStates, hb]
        simp only [List.getElem?_cons_succ]
        exact hst)
      rw [hl, hr]
      simp
      omega

/-- For a start text of at least `order` code points, `generateText` is the
loop run from the state `(startRunes, last order runes)`, and `runStates`
lists the states of that run. -/
theorem generateText_loop (startTxt : GoString) (k iterations : Int) (t : Table)
    (trace : Nat → Nat) (h0 : 0 ≤ k) (hk : k ≤ (startTxt.length : Int))
    (hstart : (startTxt.length : Int) ≤ maxInt) :
    ∃ g, runStates startTxt k iterations t trace =
        genStates k t trace iterations.toNat 0 ⟨runesOf startTxt, g⟩ ∧
      generateText startTxt k iterations t trace =
        match genLoop k t trace iterations.toNat 0 ⟨runesOf startTxt, g⟩ with
        | .error e => .error e
        | .ok s => .ok (stringOf s.result) := by
  have hlt : ¬ (len (runesOf startTxt) < k) := by
    unfold len; rw [length_runesOf]; omega
  obtain ⟨g, hg⟩ := slice_suffix_ok (runesOf startTxt) k h0
    (by rw [length_runesOf]; exact hk) (by rw [length_runesOf]; exact hstart)
  refine ⟨g, ?_, ?_⟩
  · unfold runStates
    simp only []
    rw [if_neg hlt, hg]
  · unfold generateText
    simp only []
    rw [if_neg hlt, hg]

/-! ## Further claims about `processText` -/

/-- C12: for every corpus and order `k` (every `k > 0`, and `k = 0` as well),
a context is a key of `processText(corpus, k)` if and only if it equals
`corpus[i..i+k)` for a window position `i` with `i + k < len corpus`, and
every key maps to a non-empty occurrence list. -/
theorem processText_keys_are_windows (corpus : GoString) (k : Nat)
    (hkmax : (k : Int) ≤ maxInt) (hlen : (corpus.length : Int) ≤ maxInt) :
    ∃ t, processText corpus (k : Int) = .ok t ∧
      (∀ ctx, (∃ v, (ctx, v) ∈ t) ↔
        ∃ i, i + k < corpus.length ∧ window corpus i k = ctx) ∧
      (∀ p ∈ t, p.2 ≠ []) := by
  obtain ⟨t, h1, hnd, hget⟩ := processText_table corpus k hkmax hlen
  exact ⟨t, h1, key_iff_window corpus k t hnd hget,
    table_lists_nonempty corpus k t hnd hget⟩

theorem processText_keys_are_windows_witness :
    (((2 : Nat) : Int) ≤ maxInt ∧ (((str [97, 98, 97, 98, 99]).length : Nat) : Int) ≤ maxInt) ∧
    ∃ t, processText (str [97, 98, 97, 98, 99]) ((2 : Nat) : Int) = .ok t ∧
      (∀ ctx, (∃ v, (ctx, v) ∈ t) ↔
        ∃ i, i + 2 < (str [97, 98, 97, 98, 99]).length ∧
          window (str [97, 98, 97, 98, 99]) i 2 = ctx) ∧
      (∀ p ∈ t, p.2 ≠ []) :=
  ⟨⟨by decide, by decide⟩,
    processText_keys_are_windows (str [97, 98, 97, 98, 99]) 2 (by decide) (by decide)⟩

/-- C16 (as amended): for every corpus with at least `k` code points, the
window at the last position `len corpus - k` is not recorded: the context
formed by the last `k` code points is a key of `processText(corpus, k)` if
and only if the same context also occurs at an earlier window position
`i < len corpus - k`, and the occurrence list stored under it then holds the
followers of those earlier occurrences only, in order
(`followersUpTo corpus k ctx (len corpus - k)`): each code point `c` as often
as there are positions `i < len corpus - k` with `corpus[i..i+k)` the context
and `corpus[i+k] = c`. -/
theorem processText_last_window (corpus : GoString) (k : Nat)
    (hkmax : (k : Int) ≤ maxInt) (hlen : (corpus.length : Int) ≤ maxInt)
    (hk : k ≤ corpus.length) :
    ∃ t, processText corpus (k : Int) = .ok t ∧
      ((∃ v, (window corpus (corpus.length - k) k, v) ∈ t) ↔
        ∃ i, i < corpus.length - k ∧
          window corpus i k = window corpus (corpus.length - k) k) ∧
      (∀ v, (window corpus (corpus.length - k) k, v) ∈ t →
        v = followersUpTo corpus k (window corpus (corpus.length - k) k)
              (corpus.length - k) ∧
        ∀ c : Rune, v.count c =
          (occurrencePositions corpus k (window corpus (corpus.length - k) k) c).length) := by
  obtain ⟨t, h1, hnd, hget⟩ := processText_table corpus k hkmax hlen
  refine ⟨t, h1, ?_, ?_⟩
  · rw [key_iff_window corpus k t hnd hget]
    constructor
    · rintro ⟨i, hi, hw⟩
      exact ⟨i, by omega, hw⟩
    · rintro ⟨i, hi, hw⟩
      exact ⟨i, by omega, hw⟩
  · intro v hv
    have h2 := mapGet?_of_mem t hnd _ v hv
    rw [hget] at h2
    obtain ⟨hv2, _⟩ := specGet_eq_some _ _ _ _ _ h2
    refine ⟨hv2, ?_⟩
    intro c
    rw [hv2, count_followersUpTo]
    rfl

theorem processText_last_window_witness :
    (((2 : Nat) : Int) ≤ maxInt ∧ (((str [97, 98, 97, 98]).length : Nat) : Int) ≤ maxInt ∧
      2 ≤ (str [97, 98, 97, 98]).length) ∧
    ∃ t, processText (str [97, 98, 97, 98]) ((2 : Nat) : Int) = .ok t ∧
      ((∃ v, (window (str [97, 98, 97, 98]) ((str [97, 98, 97, 98]).length - 2) 2, v) ∈ t) ↔
        ∃ i, i < (str [97, 98, 97, 98]).length - 2 ∧
          window (str [97, 98, 97, 98]) i 2 =
            window (str [97, 98, 97, 98]) ((str [97, 98, 97, 98]).length - 2) 2) ∧
      (∀ v, (window (str [97, 98, 97, 98]) ((str [97, 98, 97, 98]).length - 2) 2, v) ∈ t →
        v = followersUpTo (str [97, 98, 97, 98]) 2
              (window (str [97, 98, 97, 98]) ((str [97, 98, 97, 98]).length - 2) 2)
              ((str [97, 98, 97, 98]).length - 2) ∧
        ∀ c : Rune, v.count c =
          (occurrencePositions (str [97, 98, 97, 98]) 2
            (window (str [97, 98, 97, 98]) ((str [97, 98, 97, 98]).length - 2) 2) c).length) :=
  ⟨⟨by decide, by decide, by decide⟩,
    processText_last_window (str [97, 98, 97, 98]) 2 (by decide) (by decide) (by decide)⟩

/-- C16 (as stated) fails: in `processText("aaa", 2)` the last two code
points `aa` are a key with the recorded continuation `a`, because the same
context occurs at window position 0. -/
theorem processText_last_context_recorded :
    processText (str [97, 97, 97]) 2 = .ok [(str [97, 97], [97])] ∧
      window (str [97, 97, 97]) ((str [97, 97, 97]).length - 2) 2 = str [97, 97] ∧
      mapGet? [(str [97, 97], [97])] (str [97, 97]) = some [97] :=
  ⟨by rfl, by rfl, by rfl⟩

/-! ## Further claims about `generateText` -/

/-- Only `max(iterations, 0)`, the number of loop iterations, matters to
`generateText`. -/
theorem generateText_budget_toNat (startTxt : GoString) (k i1 i2 : Int) (ngrams : Table)
    (trace : Nat → Nat) (h : i1.toNat = i2.toNat) :
    generateText startTxt k i1 ngrams trace = generateText startTxt k i2 ngrams trace := by
  unfold generateText
  rw [h]

/-- The response of `markovHandler` depends on the `i` parameter only
through the number of loop iterations. -/
theorem markovHandler_budget_toNat (env : Env) (trace : Nat → Nat) (cfg : Config)
    (path : List Nat) (o : IntParam) (s : Option GoString) (i1 i2 : Int)
    (h : i1.toNat = i2.toNat) :
    (markovHandler env trace cfg ⟨path, o, .value i1, s⟩).2 =
      (markovHandler env trace cfg ⟨path, o, .value i2, s⟩).2 := by
  unfold markovHandler
  simp only []
  split
  · rfl
  · split
    · rfl
    · cases loadText env (List.drop 8 path) with
      | error e => rfl
      | ok inputTxt =>
        simp only []
        cases processText inputTxt (overrideInt cfg.order o) with
        | error e => rfl
        | ok ngrams =>
          simp only []
          have hi1 : overrideInt cfg.iterations (.value i1) = i1 := rfl
          have hi2 : overrideInt cfg.iterations (.value i2) = i2 := rfl
          rw [hi1, hi2, generateText_budget_toNat _ _ i1 i2 _ _ h]
          cases generateText (match s with | some s => s | none => cfg.startText)
              (overrideInt cfg.order o) i2 ngrams trace with
          | error e => rfl
          | ok out => rfl

/-- C11 (as amended): a negative iteration budget is not rejected.  For
every start text, order, table and random-selection trace, `generateText`
with `iterations < 0` returns exactly what it returns with `iterations = 0`,
and a text it returns is the start text itself (early exit) or
`string([]rune(startTxt))`, the code points of the start text re-encoded;
and `markovHandler` answers a request with `i = iterations < 0` as it
answers the same request with `i = 0`. -/
theorem generateText_negative_budget (startTxt : RawString) (k iterations : Int)
    (ngrams : Table) (trace : Nat → Nat) (env : Env) (cfg : Config) (path : List Nat)
    (o : IntParam) (s : Option GoString) (hneg : iterations < 0) :
    generateTextRaw startTxt k iterations ngrams trace =
        generateTextRaw startTxt k 0 ngrams trace ∧
      (∀ out, generateTextRaw startTxt k iterations ngrams trace = .ok out →
        out = startTxt ∨ out = encode (decode startTxt)) ∧
      (markovHandler env trace cfg ⟨path, o, .value iterations, s⟩).2 =
        (markovHandler env trace cfg ⟨path, o, .value 0, s⟩).2 := by
  have h1 : iterations.toNat = (0 : Int).toNat := by
    have h2 : (0 : Int).toNat = 0 := rfl
    omega
  refine ⟨generateTextRaw_budget_toNat _ _ _ _ _ _ h1, ?_,
    markovHandler_budget_toNat env trace cfg path o s iterations 0 h1⟩
  intro out h
  exact generateTextRaw_no_iteration startTxt k iterations ngrams trace out (by omega) h

theorem generateText_negative_budget_witness :
    (-3 : Int) < 0 ∧
      (generateTextRaw [.invalidByte 255, .scalar (toScalar 98), .scalar (toScalar 99)] 3 (-3)
            [(str [0xFFFD, 98, 99], [100])] (fun _ => 0) =
          generateTextRaw [.invalidByte 255, .scalar (toScalar 98), .scalar (toScalar 99)] 3 0
            [(str [0xFFFD, 98, 99], [100])] (fun _ => 0) ∧
        (∀ out,
          generateTextRaw [.invalidByte 255, .scalar (toScalar 98), .scalar (toScalar 99)] 3
            (-3) [(str [0xFFFD, 98, 99], [100])] (fun _ => 0) = .ok out →
          out = [.invalidByte 255, .scalar (toScalar 98), .scalar (toScalar 99)] ∨
            out = encode
              (decode [.invalidByte 255, .scalar (toScalar 98), .scalar (toScalar 99)])) ∧
        (markovHandler sampleEnv (fun _ => 0) (startupConfig 5 500)
            ⟨carrollPath, .value 3, .value (-3), some (str [97, 98, 99])⟩).2 =
          (markovHandler sampleEnv (fun _ => 0) (startupConfig 5 500)
            ⟨carrollPath, .value 3, .value 0, some (str [97, 98, 99])⟩).2) :=
  ⟨by decide, generateText_negative_budget
      [.invalidByte 255, .scalar (toScalar 98), .scalar (toScalar 99)] 3 (-3)
      [(str [0xFFFD, 98, 99], [100])] (fun _ => 0) sampleEnv (startupConfig 5 500) carrollPath
      (.value 3) (some (str [97, 98, 99])) (by decide)⟩

/-- C11 (as stated) fails: `generateText("abc", 3, -1, {abc -> [d]})` is not
rejected, it returns `"abc"`, the result of the call with `iterations = 0`;
and `markovHandler` answers a request with `i=-1` with the text it answers
to the same request with `i=0`. -/
theorem generateText_negative_budget_accepted :
    generateText (str [97, 98, 99]) 3 (-1) [(str [97, 98, 99], [100])] (fun _ => 0) =
        .ok (str [97, 98, 99]) ∧
      generateText (str [97, 98, 99]) 3 0 [(str [97, 98, 99], [100])] (fun _ => 0) =
        .ok (str [97, 98, 99]) ∧
      (markovHandler sampleEnv (fun _ => 0) (startupConfig 5 500)
          ⟨carrollPath, .value 3, .value (-1), some (str [97, 98, 99])⟩).2 =
        .text (str [97, 98, 99]) ∧
      (markovHandler sampleEnv (fun _ => 0) (startupConfig 5 500)
          ⟨carrollPath, .value 3, .value 0, some (str [97, 98, 99])⟩).2 =
        .text (str [97, 98, 99]) :=
  ⟨by rfl, by rfl, by rfl, by rfl⟩

/-! ## Claims about the pipeline -/

/-- C13: for every corpus, order `k` (every `k > 0`, and `k = 0` as well),
start text, iteration budget and random-selection trace, the pipeline
`generateText(startText, k, iterations, processText(corpus, k))` raises no
run-time failure: no slice or index expression is out of bounds and
`rand.Intn` is never called with 0, so a text is returned.  (Lengths, order
and `len startText + iterations` are Go `int`s, at most `maxInt`.) -/
theorem pipeline_no_failure (corpus startTxt : GoString) (k : Nat) (iterations : Int)
    (trace : Nat → Nat) (hkmax : (k : Int) ≤ maxInt)
    (hlen : (corpus.length : Int) ≤ maxInt)
    (hstart : (startTxt.length : Int) ≤ maxInt)
    (hmax : (startTxt.length : Int) + iterations ≤ maxInt) :
    ∃ out, runPipeline corpus startTxt (k : Int) iterations trace = .ok out := by
  obtain ⟨t, h1, hnd, hget⟩ := processText_table corpus k hkmax hlen
  have hne := table_lists_nonempty corpus k t hnd hget
  obtain ⟨out, ho⟩ := generateText_ok startTxt (k : Int) iterations t trace (by omega) hne
    hmax hstart
  refine ⟨out, ?_⟩
  unfold runPipeline
  rw [h1]
  exact ho

theorem pipeline_no_failure_witness :
    (((2 : Nat) : Int) ≤ maxInt ∧
      (((str [97, 98, 97, 98, 99]).length : Nat) : Int) ≤ maxInt ∧
      (((str [98, 97, 98]).length : Nat) : Int) ≤ maxInt ∧
      (((str [98, 97, 98]).length : Nat) : Int) + 4 ≤ maxInt) ∧
    ∃ out, runPipeline (str [97, 98, 97, 98, 99]) (str [98, 97, 98]) ((2 : Nat) : Int) 4
      (fun i => i) = .ok out :=
  ⟨⟨by decide, by decide, by decide, by decide⟩,
    pipeline_no_failure (str [97, 98, 97, 98, 99]) (str [98, 97, 98]) 2 4 (fun i => i)
      (by decide) (by decide) (by decide) (by decide)⟩

/-- C19: for every corpus, order `k`, start text, iteration budget and
random-selection trace, the pipeline returns a text `out` in which every
appended code point is a recorded continuation of the `k` code points before
it: for every position `j` with `len startText ≤ j < len out`, the window
`out[j-k..j]` of `k + 1` code points is a contiguous piece of the corpus. -/
theorem pipeline_appends_recorded (corpus startTxt : GoString) (k : Nat) (iterations : Int)
    (trace : Nat → Nat) (hkmax : (k : Int) ≤ maxInt)
    (hlen : (corpus.length : Int) ≤ maxInt)
    (hstart : (startTxt.length : Int) ≤ maxInt)
    (hmax : (startTxt.length : Int) + iterations ≤ maxInt) :
    ∃ out, runPipeline corpus startTxt (k : Int) iterations trace = .ok out ∧
      ∀ j, startTxt.length ≤ j → j < out.length →
        window out (j - k) (k + 1) <:+: corpus := by
  obtain ⟨t, h1, hnd, hget⟩ := processText_table corpus k hkmax hlen
  have hne := table_lists_nonempty corpus k t hnd hget
  obtain ⟨out, ho⟩ := generateText_ok startTxt (k : Int) iterations t trace (by omega) hne
    hmax hstart
  refine ⟨out, by unfold runPipeline; rw [h1]; exact ho, ?_⟩
  unfold generateText at ho
  simp only [] at ho
  split at ho
  · simp only [Except.ok.injEq] at ho
    intro j hj1 hj2
    rw [← ho] at hj2
    omega
  · rename_i hlt
    have hk : k ≤ (runesOf startTxt).length := by
      unfold len at hlt
      omega
    rw [slice_suffix_eq (runesOf startTxt) k hk (by rw [length_runesOf]; exact hstart)] at ho
    simp only [] at ho
    split at ho
    · simp at ho
    · rename_i s1 hs1
      simp only [Except.ok.injEq] at ho
      have hrec := genLoop_recorded corpus k t trace startTxt.length
        (by rw [length_runesOf] at hk; exact hk)
        (fun ctx v r hv hr => table_sound corpus k t hget ctx v r hv hr)
        iterations.toNat 0 _ s1 hs1
        (by simp only [length_runesOf]; omega) rfl
        (by simp only [length_runesOf]; omega)
        (by
          intro j hj1 hj2
          simp only [length_runesOf] at hj2
          omega)
      intro j hj1 hj2
      rw [← ho] at hj2 ⊢
      rw [length_stringOf] at hj2
      have hwm : window (stringOf s1.result) (j - k) (k + 1) =
          stringOf (window s1.result (j - k) (k + 1)) := window_map toScalar _ _ _
      rw [hwm]
      exact hrec j hj1 hj2

theorem pipeline_appends_recorded_witness :
    (((2 : Nat) : Int) ≤ maxInt ∧
      (((str [97, 98, 97, 98, 99]).length : Nat) : Int) ≤ maxInt ∧
      (((str [98, 97, 98]).length : Nat) : Int) ≤ maxInt ∧
      (((str [98, 97, 98]).length : Nat) : Int) + 4 ≤ maxInt) ∧
    ∃ out, runPipeline (str [97, 98, 97, 98, 99]) (str [98, 97, 98]) ((2 : Nat) : Int) 4
        (fun i => i) = .ok out ∧
      ∀ j, (str [98, 97, 98]).length ≤ j → j < out.length →
        window out (j - 2) (2 + 1) <:+: str [97, 98, 97, 98, 99] :=
  ⟨⟨by decide, by decide, by decide, by decide⟩,
    pipeline_appends_recorded (str [97, 98, 97, 98, 99]) (str [98, 97, 98]) 2 4 (fun i => i)
      (by decide) (by decide) (by decide) (by decide)⟩

/-! ## Determinism and exact length -/

/-- C14: for every table in which every occurrence list holds a single
distinct value (possibly duplicated), every start text, order `k > 0` and
iteration budget, `generateText` returns one and the same text for every
random-selection trace. -/
theorem generateText_single_valued (startTxt : GoString) (k iterations : Int)
    (ngrams : Table) (hk : 0 < k)
    (hsingle : ∀ p ∈ ngrams, ∃ c, c ∈ p.2 ∧ ∀ x ∈ p.2, x = c)
    (hstart : (startTxt.length : Int) ≤ maxInt)
    (hmax : (startTxt.length : Int) + iterations ≤ maxInt) :
    ∃ out, ∀ trace : Nat → Nat,
      generateText startTxt k iterations ngrams trace = .ok out := by
  have hne : ∀ p ∈ ngrams, p.2 ≠ [] := by
    intro p hp
    obtain ⟨c, hc, _⟩ := hsingle p hp
    exact List.ne_nil_of_mem hc
  obtain ⟨out, ho⟩ := generateText_ok startTxt k iterations ngrams (fun _ => 0)
    (by omega) hne hmax hstart
  refine ⟨out, ?_⟩
  intro trace
  rw [← ho]
  unfold generateText
  simp only []
  split
  · rfl
  · split
    · rfl
    · rw [genLoop_trace_free k ngrams trace (fun _ => 0) hsingle]

theorem generateText_single_valued_witness :
    ((0 : Int) < 2 ∧
      (∀ p ∈ ([(str [97, 98], [99, 99]), (str [98, 99], [97])] : Table),
        ∃ c, c ∈ p.2 ∧ ∀ x ∈ p.2, x = c) ∧
      (((str [97, 98]).length : Nat) : Int) ≤ maxInt ∧
      (((str [97, 98]).length : Nat) : Int) + 3 ≤ maxInt) ∧
    ∃ out, ∀ trace : Nat → Nat,
      generateText (str [97, 98]) 2 3 [(str [97, 98], [99, 99]), (str [98, 99], [97])] trace =
        .ok out :=
  ⟨⟨by decide, by decide, by decide, by decide⟩,
    generateText_single_valued (str [97, 98]) 2 3
      [(str [97, 98], [99, 99]), (str [98, 99], [97])]
      (by decide) (by decide) (by decide) (by decide)⟩

/-- C15: for every start text with at least `k` code points (`k > 0`),
non-negative iteration budget, table with non-empty occurrence lists and
random-selection trace, `generateText` returns a text whose length is
`len startTxt + iterations` if and only if none of the lookups at the start
of the iterations `j < iterations` failed; and when the lookup of iteration
`j` fails, the output is the text generated up to that lookup, of length
`len startTxt + j`. -/
theorem generateText_exact_length (startTxt : GoString) (k iterations : Int)
    (ngrams : Table) (trace : Nat → Nat) (hk : 0 < k)
    (hstartk : k ≤ (startTxt.length : Int)) (hit : 0 ≤ iterations)
    (hne : ∀ p ∈ ngrams, p.2 ≠ [])
    (hmax : (startTxt.length : Int) + iterations ≤ maxInt) :
    ∃ out, generateText startTxt k iterations ngrams trace = .ok out ∧
      ((out.length : Int) = (startTxt.length : Int) + iterations ↔
        ∀ (j : Nat) (st : GenState), (j : Int) < iterations →
          (runStates startTxt k iterations ngrams trace)[j]? = some st →
          mapGet? ngrams (stringOf st.currentGram) ≠ none) ∧
      (∀ (j : Nat) (st : GenState), (j : Int) < iterations →
        (runStates startTxt k iterations ngrams trace)[j]? = some st →
        mapGet? ngrams (stringOf st.currentGram) = none →
        out = stringOf st.result ∧ out.length = startTxt.length + j) := by
  obtain ⟨g, hrs, hgen⟩ := generateText_loop startTxt k iterations ngrams trace
    (by omega) hstartk (by omega)
  obtain ⟨s1, hs1⟩ := genLoop_ok k ngrams trace (by omega) hne iterations.toNat 0
    ⟨runesOf startTxt, g⟩ (by simp only [length_runesOf]; exact hstartk)
    (by simp only [length_runesOf]; omega)
  rw [hs1] at hgen
  simp only [] at hgen
  refine ⟨stringOf s1.result, hgen, ?_, ?_⟩
  · rw [hrs, length_stringOf]
    constructor
    · intro hlen j st hj hst habs
      obtain ⟨h1, h2⟩ := genLoop_dead_end k ngrams trace iterations.toNat 0 _ j st hst
        (by omega) habs
      rw [hs1] at h1
      simp only [Except.ok.injEq] at h1
      rw [h1, h2] at hlen
      simp only [length_runesOf] at hlen
      push_cast at hlen
      omega
    · intro hall
      have hl := genLoop_full k ngrams trace iterations.toNat 0 _ s1 hs1 (by
        intro j st hj hst
        exact hall j st (by omega) hst)
      rw [hl]
      simp only [length_runesOf]
      push_cast
      omega
  · intro j st hj hst habs
    rw [hrs] at hst
    obtain ⟨h1, h2⟩ := genLoop_dead_end k ngrams trace iterations.toNat 0 _ j st hst
      (by omega) habs
    rw [hs1] at h1
    simp only [Except.ok.injEq] at h1
    simp only [length_runesOf] at h2
    refine ⟨by rw [h1], ?_⟩
    rw [h1, length_stringOf, h2]

theorem generateText_exact_length_witness :
    ((0 : Int) < 2 ∧ (2 : Int) ≤ (((str [97, 98]).length : Nat) : Int) ∧ (0 : Int) ≤ 3 ∧
      (∀ p ∈ ([(str [97, 98], [99]), (str [98, 99], [97, 100])] : Table), p.2 ≠ []) ∧
      (((str [97, 98]).length : Nat) : Int) + 3 ≤ maxInt) ∧
    ∃ out, generateText (str [97, 98]) 2 3 [(str [97, 98], [99]), (str [98, 99], [97, 100])]
        (fun i => i) = .ok out ∧
      ((out.length : Int) = (((str [97, 98]).length : Nat) : Int) + 3 ↔
        ∀ (j : Nat) (st : GenState), (j : Int) < 3 →
          (runStates (str [97, 98]) 2 3 [(str [97, 98], [99]), (str [98, 99], [97, 100])]
            (fun i => i))[j]? = some st →
          mapGet? [(str [97, 98], [99]), (str [98, 99], [97, 100])]
            (stringOf st.currentGram) ≠ none) ∧
      (∀ (j : Nat) (st : GenState), (j : Int) < 3 →
        (runStates (str [97, 98]) 2 3 [(str [97, 98], [99]), (str [98, 99], [97, 100])]
          (fun i => i))[j]? = some st →
        mapGet? [(str [97, 98], [99]), (str [98, 99], [97, 100])]
          (stringOf st.currentGram) = none →
        out = stringOf st.result ∧ out.length = (str [97, 98]).length + j) :=
  ⟨⟨by decide, by decide, by decide, by decide, by decide⟩,
    generateText_exact_length (str [97, 98]) 2 3
      [(str [97, 98], [99]), (str [98, 99], [97, 100])] (fun i => i)
      (by decide) (by decide) (by decide) (by decide) (by decide)⟩

/-! ## The HTTP handler -/

/-- For a recognised author `loadText` never reports an error: a failed read
yields the empty corpus and a nil error. -/
theorem loadText_recognised (env : Env) (author : List Nat) (book : Book)
    (h : bookOf (env.toLower author) = some book) :
    loadText env author = .ok ((env.readFile book).getD []) := by
  unfold loadText
  simp only [h]
  cases env.readFile book with
  | none => rfl
  | some text => rfl

/-- A request that carries a parsable `o` leaves its value in the package
variable `order` for the requests that follow. -/
theorem markovHandler_stores_order (env : Env) (trace : Nat → Nat) (cfg : Config)
    (r : Request) (n : Int) (ho : r.o = .value n)
    (hpath : ¬ (r.path.length < 8 ∨ r.path.take 8 ≠ markovRoute))
    (hauthor : ¬ ((r.path.drop 8).length = 0)) :
    (markovHandler env trace cfg r).1.order = n := by
  unfold markovHandler
  rw [if_neg hpath]
  simp only []
  rw [if_neg hauthor, ho]
  simp only [overrideInt]
  split
  · rfl
  · split
    · rfl
    · split <;> rfl

/-- C17 (the code at the failing input): three requests to
`/markov/Carroll` handled one after another from the startup defaults, the
first with `o=2`, the second with `i=3&s=abc`, the third with no parameter.
The second request omits `o` and is processed with order 2, not the default
5 (it answers `abcabc`; handled first it answers `abc`); the third request
omits everything and is still processed with order 2, 3 iterations and start
text `abc` (handled first it answers the default start sentence). -/
theorem markovHandler_parameters_leak :
    serve sampleEnv (fun _ _ => 0) 0 (startupConfig defaultOrder defaultIterations)
        [⟨carrollPath, .value 2, .absent, none⟩,
         ⟨carrollPath, .absent, .value 3, some (str [97, 98, 99])⟩,
         ⟨carrollPath, .absent, .absent, none⟩] =
        [.text defaultStartText, .text (str [97, 98, 99, 97, 98, 99]),
         .text (str [97, 98, 99, 97, 98, 99])] ∧
      serve sampleEnv (fun _ _ => 0) 0 (startupConfig defaultOrder defaultIterations)
        [⟨carrollPath, .absent, .value 3, some (str [97, 98, 99])⟩] =
        [.text (str [97, 98, 99])] ∧
      serve sampleEnv (fun _ _ => 0) 0 (startupConfig defaultOrder defaultIterations)
        [⟨carrollPath, .absent, .absent, none⟩] = [.text defaultStartText] :=
  ⟨by rfl, by rfl, by rfl⟩

/-- C18 (the code at the failing input): `data/a_room_with_a_view.txt`
cannot be read, yet `loadText("forster")` reports no error and returns the
empty corpus, and `markovHandler` answers `/markov/forster` with a generated
text (the start sentence, from the empty table of `processText("", 5)`), not
with the not-found response; an unknown author does get the not-found
response. -/
theorem markovHandler_unreadable_corpus :
    sampleEnv.readFile .aRoomWithAView = none ∧
      loadText sampleEnv [102, 111, 114, 115, 116, 101, 114] = .ok [] ∧
      processText [] defaultOrder = .ok [] ∧
      markovHandler sampleEnv (fun _ => 0) (startupConfig defaultOrder defaultIterations)
        ⟨forsterPath, .absent, .absent, none⟩ =
        (startupConfig defaultOrder defaultIterations, .text defaultStartText) ∧
      markovHandler sampleEnv (fun _ => 0) (startupConfig defaultOrder defaultIterations)
        ⟨markovRoute ++ [120], .absent, .absent, none⟩ =
        (startupConfig defaultOrder defaultIterations, .notFound) :=
  ⟨by rfl, by rfl, by rfl, by rfl, by rfl⟩

end Markov
